import Mathlib

/-!
Verification of the ONNX Runtime threadpool core
(`onnxruntime/core/common/threadpool.cc`): the sharded loop counter
(`LoopCounter`), the fixed-block scheduler
(`ParallelForFixedBlockSizeScheduling`), the parallel-for entry points,
the parallel section lifecycle and the threadpool profiler, shallowly
embedded as executable Lean definitions.  Concurrency is modelled by an
explicit small-step interleaving semantics: each atomic access of the
C++ code (the relaxed pre-check load, the `fetch_add`, the `fetch_sub`)
is one transition, and a schedule is an arbitrary list of caller indices.
-/

namespace Threadpool

/-- Consecutive half-open ranges: `chain lo hi rs` holds when `rs` lists
ranges `(a, c)` that start at `lo`, are gapless and non-empty, and end
exactly at `hi`. -/
def chain : Nat → Nat → List (Nat × Nat) → Prop
  | lo, hi, [] => lo = hi
  | lo, hi, r :: rs => r.1 = lo ∧ lo < r.2 ∧ chain r.2 hi rs

theorem chain_le {hi : Nat} : ∀ {lo : Nat} {rs : List (Nat × Nat)}, chain lo hi rs → lo ≤ hi := by
  intro lo rs
  induction rs generalizing lo with
  | nil => intro h; exact Nat.le_of_eq h
  | cons r rs ih =>
    intro h
    obtain ⟨h1, h2, h3⟩ := h
    exact Nat.le_trans (Nat.le_of_lt h2) (ih h3)

theorem chain_snoc {c : Nat} : ∀ {lo m : Nat} {rs : List (Nat × Nat)},
    chain lo m rs → m < c → chain lo c (rs ++ [(m, c)]) := by
  intro lo m rs
  induction rs generalizing lo with
  | nil => intro h hmc; exact ⟨h.symm, h ▸ hmc, rfl⟩
  | cons r rs ih =>
    intro h hmc
    obtain ⟨h1, h2, h3⟩ := h
    exact ⟨h1, h2, ih h3 hmc⟩

theorem chain_append {mid hi : Nat} : ∀ {lo : Nat} {xs ys : List (Nat × Nat)},
    chain lo mid xs → chain mid hi ys → chain lo hi (xs ++ ys) := by
  intro lo xs
  induction xs generalizing lo with
  | nil =>
    intro ys h1 h2
    have he : lo = mid := h1
    subst he
    simpa using h2
  | cons r rs ih =>
    intro ys h1 h2
    obtain ⟨ha, hb, hc⟩ := h1
    exact ⟨ha, hb, ih hc h2⟩

theorem chain_mem {hi : Nat} : ∀ {lo : Nat} {rs : List (Nat × Nat)} {r : Nat × Nat},
    chain lo hi rs → r ∈ rs → lo ≤ r.1 ∧ r.1 < r.2 ∧ r.2 ≤ hi := by
  intro lo rs
  induction rs generalizing lo with
  | nil => intro r _ hm; cases hm
  | cons q qs ih =>
    intro r h hm
    obtain ⟨h1, h2, h3⟩ := h
    rcases List.mem_cons.mp hm with hm | hm
    · subst hm
      exact ⟨Nat.le_of_eq h1.symm, h1 ▸ h2, chain_le h3⟩
    · obtain ⟨ha, hb, hc⟩ := ih h3 hm
      exact ⟨Nat.le_trans (Nat.le_of_lt h2) ha, hb, hc⟩

theorem chain_cover {hi x : Nat} : ∀ {lo : Nat} {rs : List (Nat × Nat)},
    chain lo hi rs → ((∃ r ∈ rs, r.1 ≤ x ∧ x < r.2) ↔ lo ≤ x ∧ x < hi) := by
  intro lo rs
  induction rs generalizing lo with
  | nil =>
    intro h
    subst h
    constructor
    · rintro ⟨r, hr, _⟩
      cases hr
    · rintro ⟨h1, h2⟩
      omega
  | cons r rs ih =>
    intro h
    obtain ⟨h1, h2, h3⟩ := h
    constructor
    · rintro ⟨q, hq, hq1, hq2⟩
      rcases List.mem_cons.mp hq with hm | hm
      · subst hm
        have := chain_le h3
        omega
      · have := (ih h3).mp ⟨q, hm, hq1, hq2⟩
        omega
    · rintro ⟨hx1, hx2⟩
      by_cases hcase : x < r.2
      · exact ⟨r, List.mem_cons_self r rs, by omega, hcase⟩
      · have := (ih h3).mpr ⟨by omega, hx2⟩
        obtain ⟨q, hq, hqx⟩ := this
        exact ⟨q, List.mem_cons_of_mem _ hq, hqx⟩

theorem chain_pairwise {hi : Nat} : ∀ {lo : Nat} {rs : List (Nat × Nat)},
    chain lo hi rs → rs.Pairwise (fun a b => a.2 ≤ b.1) := by
  intro lo rs
  induction rs generalizing lo with
  | nil => intro _; exact List.Pairwise.nil
  | cons r rs ih =>
    intro h
    obtain ⟨h1, h2, h3⟩ := h
    refine List.Pairwise.cons ?_ (ih h3)
    intro b hb
    exact (chain_mem h3 hb).1

theorem pairwise_mem_cases {α : Type} {R : α → α → Prop} :
    ∀ {l : List α} {a b : α}, l.Pairwise R → a ∈ l → b ∈ l → a = b ∨ R a b ∨ R b a := by
  intro l
  induction l with
  | nil => intro a b _ ha; cases ha
  | cons x xs ih =>
    intro a b hp ha hb
    have hx := List.pairwise_cons.mp hp
    rcases List.mem_cons.mp ha with ha | ha <;> rcases List.mem_cons.mp hb with hb | hb
    · left; rw [ha, hb]
    · right; left; exact ha ▸ hx.1 b hb
    · right; right; exact hb ▸ hx.1 a ha
    · exact ih hx.2 ha hb

theorem chain_exists_unique {lo hi x : Nat} {rs : List (Nat × Nat)}
    (h : chain lo hi rs) (hx1 : lo ≤ x) (hx2 : x < hi) :
    ∃! r, r ∈ rs ∧ r.1 ≤ x ∧ x < r.2 := by
  obtain ⟨r, hr, hrx⟩ := (chain_cover h).mpr ⟨hx1, hx2⟩
  refine ⟨r, ⟨hr, hrx⟩, ?_⟩
  rintro q ⟨hq, hqx⟩
  rcases pairwise_mem_cases (chain_pairwise h) hq hr with he | hlt | hlt
  · exact he
  · omega
  · omega

/-- Cyclic distance from `home` to `cur` when walking forward modulo `S`:
the number of advance operations `cur ← (cur + 1) % S` a caller has done
since its cursor was last at its home shard. -/
def cdist (S home cur : Nat) : Nat := (cur + S - home) % S

theorem cdist_eq {S home cur : Nat} (hh : home < S) (hc : cur < S) :
    cdist S home cur = if home ≤ cur then cur - home else cur + S - home := by
  unfold cdist
  split
  · have h1 : cur + S - home = S + (cur - home) := by omega
    rw [h1, Nat.add_mod_left, Nat.mod_eq_of_lt (by omega)]
  · rw [Nat.mod_eq_of_lt (by omega)]

theorem cdist_self {S home : Nat} (hh : home < S) : cdist S home home = 0 := by
  rw [cdist_eq hh hh]
  simp

theorem cdist_lt {S home cur : Nat} (hh : home < S) (hc : cur < S) :
    cdist S home cur < S := by
  rw [cdist_eq hh hc]
  split <;> omega

theorem cdist_spec {S home cur : Nat} (hh : home < S) (hc : cur < S) :
    (home + cdist S home cur) % S = cur := by
  rw [cdist_eq hh hc]
  split
  · rw [Nat.mod_eq_of_lt (by omega)]
    omega
  · have h1 : home + (cur + S - home) = S + cur := by omega
    rw [h1, Nat.add_mod_left, Nat.mod_eq_of_lt hc]

theorem succ_mod_cases {S cur : Nat} (hc : cur < S) :
    (cur + 1) % S = if cur + 1 = S then 0 else cur + 1 := by
  split
  · rename_i h
    rw [h, Nat.mod_self]
  · rw [Nat.mod_eq_of_lt (by omega)]

theorem cdist_advance_wrap {S home cur : Nat} (hh : home < S) (hc : cur < S)
    (hw : (cur + 1) % S = home) : cdist S home cur = S - 1 := by
  by_cases hS : cur + 1 = S
  · have h0 : (cur + 1) % S = 0 := by rw [hS, Nat.mod_self]
    rw [h0] at hw
    rw [cdist_eq hh hc]
    split <;> omega
  · have h0 : (cur + 1) % S = cur + 1 := Nat.mod_eq_of_lt (by omega)
    rw [h0] at hw
    rw [cdist_eq hh hc]
    split <;> omega

theorem cdist_advance {S home cur : Nat} (hh : home < S) (hc : cur < S)
    (hw : (cur + 1) % S ≠ home) :
    cdist S home ((cur + 1) % S) = cdist S home cur + 1 := by
  by_cases hS : cur + 1 = S
  · have h0 : (cur + 1) % S = 0 := by rw [hS, Nat.mod_self]
    rw [h0] at hw ⊢
    rw [cdist_eq hh (by omega), cdist_eq hh hc]
    split <;> split <;> omega
  · have h0 : (cur + 1) % S = cur + 1 := Nat.mod_eq_of_lt (by omega)
    rw [h0] at hw ⊢
    rw [cdist_eq hh (by omega), cdist_eq hh hc]
    split <;> split <;> omega

theorem mod_surj_on {S home t : Nat} (hh : home < S) (ht : t < S) :
    ∃ j, j < S ∧ (home + j) % S = t := by
  refine ⟨cdist S home t, cdist_lt hh ht, cdist_spec hh ht⟩

/-- Shard count chosen by `LoopCounter::GetNumShards` (threadpool.cc lines
341-357): at least one block of work per shard, at most `MAX_SHARDS = 8`
shards, and no more shards than `d_of_p`. -/
def GetNumShards (numIterations dOfP blockSize : Nat) : Nat :=
  let numBlocks := numIterations / blockSize
  let ns := if numBlocks = 0 then 1 else if numBlocks < 8 then numBlocks else 8
  if ns > dOfP then dOfP else ns

/-- Iterations handed to each non-final shard:
`iterations_per_shard = blocks_per_shard * block_size` with
`blocks_per_shard = (num_iterations / block_size) / num_shards`
(`LoopCounter::LoopCounter`, threadpool.cc lines 276-278). -/
def iterationsPerShard (N dOfP B : Nat) : Nat :=
  (N / B / GetNumShards N dOfP B) * B

/-- Lower boundary of shard `s` in the iteration space; `shardLowerBound S`
(one past the last shard) is `N`.  Shard `s` owns
`[shardLowerBound s, shardLowerBound (s+1))`. -/
def shardLowerBound (N dOfP B s : Nat) : Nat :=
  if s < GetNumShards N dOfP B then s * iterationsPerShard N dOfP B else N

/-- One `LoopCounterShard` (threadpool.cc lines 258-261): the atomic
high-water mark `_next` and the exclusive bound `_end` (`endv` here, since
`end` is reserved).  `s0` records the initial value of `next` and `ranges`
and `fails` record the outcomes of the `fetch_add` operations performed on
the shard, in execution order: `ranges` holds the half-open ranges returned
by successful claims, `fails` the `(old value, block size)` pairs of
fetch-adds whose old value was at or past `_end` (claims that are
discarded).  These three fields are observer fields: they do not influence
the dynamics. -/
structure LoopCounterShard where
  next : Nat
  endv : Nat
  s0 : Nat
  ranges : List (Nat × Nat)
  fails : List (Nat × Nat)

/-- Control point of one work item running the claim loop of
`ParallelForFixedBlockSizeScheduling::run_work` (threadpool.cc lines
423-431) around `LoopCounter::ClaimIterations` (lines 307-327).
`atCheck`: about to perform the relaxed load `_next < _end`;
`atAdd`: the pre-check succeeded, about to perform `fetch_add`
(other callers may interleave between the two);
`finished`: `ClaimIterations` returned false (the caller saw every shard
drained) and the work item exited its loop. -/
inductive Phase where
  | atCheck
  | atAdd
  | finished
deriving DecidableEq

/-- One work item: its home shard (`GetHomeShard idx = idx % num_shards`),
its cursor `my_shard`, its control point, and (as an observer field) the
list of shards on which one of its fetch-adds was discarded. -/
structure Caller where
  home : Nat
  shard : Nat
  phase : Phase
  failedShards : List Nat

/-- Global state of a loop execution: the shards of the `LoopCounter` and
the states of all work items, as total functions over indices. -/
structure SysState where
  shards : Nat → LoopCounterShard
  callers : Nat → Caller

/-- Cursor advance at the bottom of the `ClaimIterations` do-while loop
(threadpool.cc lines 322-326): `my_shard = (my_shard + 1) % _num_shards`;
when the cursor is back at the home shard the function returns false and
the work item finishes. -/
def stepAdvance (S : Nat) (st : SysState) (c : Nat) (k : Caller) : SysState :=
  let ns := (k.shard + 1) % S
  let k' := { k with shard := ns,
                     phase := if ns = k.home then Phase.finished else Phase.atCheck }
  { st with callers := Function.update st.callers c k' }

/-- One atomic step of caller `c` with fixed block size `B` (the static
policy of `ParallelForFixedBlockSizeScheduling`).  Mirrors
`LoopCounter::ClaimIterations` exactly: the pre-check is a separate atomic
load from the `fetch_add`, a successful fetch-add (old value below `_end`)
returns `[t, min(_end, t + B))` and the work item re-enters the claim loop
at the same cursor, and a failed fetch-add is discarded and the cursor
advances. -/
def step (B S : Nat) (st : SysState) (c : Nat) : SysState :=
  let k := st.callers c
  match k.phase with
  | Phase.finished => st
  | Phase.atCheck =>
    let sh := st.shards k.shard
    if sh.next < sh.endv then
      { st with callers := Function.update st.callers c ({ k with phase := Phase.atAdd }) }
    else
      stepAdvance S st c k
  | Phase.atAdd =>
    let sh := st.shards k.shard
    if sh.next < sh.endv then
      let sh' := { sh with next := sh.next + B,
                           ranges := sh.ranges ++ [(sh.next, min sh.endv (sh.next + B))] }
      { st with shards := Function.update st.shards k.shard sh',
                callers := Function.update st.callers c ({ k with phase := Phase.atCheck }) }
    else
      let sh' := { sh with next := sh.next + B, fails := sh.fails ++ [(sh.next, B)] }
      stepAdvance S ({ st with shards := Function.update st.shards k.shard sh' }) c
        ({ k with failedShards := k.shard :: k.failedShards })

/-- Shard `s` of a fresh `LoopCounter(N, d_of_p, B)` (threadpool.cc lines
267-289): `_next` starts at `shard * iterations_per_shard` and `_end` is
`num_iterations` for the last shard and `(shard + 1) * iterations_per_shard`
otherwise.  Indices at or past the shard count get an empty dummy shard. -/
def initShard (N dOfP B s : Nat) : LoopCounterShard :=
  let S := GetNumShards N dOfP B
  if s < S then
    { next := s * iterationsPerShard N dOfP B,
      endv := if s = S - 1 then N else (s + 1) * iterationsPerShard N dOfP B,
      s0 := s * iterationsPerShard N dOfP B,
      ranges := [], fails := [] }
  else
    { next := 0, endv := 0, s0 := 0, ranges := [], fails := [] }

/-- Work item `i` before its first claim: home shard `i % S`
(`LoopCounter::GetHomeShard`), cursor at home, about to run the pre-check.
Indices at or past the number of dispatched work items are inert. -/
def initCaller (S W i : Nat) : Caller :=
  if i < W then
    { home := i % S, shard := i % S, phase := Phase.atCheck, failedShards := [] }
  else
    { home := 0, shard := 0, phase := Phase.finished, failedShards := [] }

/-- Initial state of a static-policy loop: a fresh counter plus `W`
dispatched work items. -/
def initState (N dOfP B W : Nat) : SysState :=
  { shards := initShard N dOfP B,
    callers := initCaller (GetNumShards N dOfP B) W }

/-- Run the loop under an arbitrary interleaving: `sched` lists, in order,
which caller performs its next atomic step. -/
def run (B S : Nat) (st : SysState) (sched : List Nat) : SysState :=
  sched.foldl (step B S) st

/-- Ranges delivered to `fn` across all callers, listed shard by shard. -/
def allRangesAux (st : SysState) : Nat → List (Nat × Nat)
  | 0 => []
  | n + 1 => allRangesAux st n ++ (st.shards n).ranges

/-- All ranges delivered to `fn` during a loop over `S` shards. -/
def allRanges (st : SysState) (S : Nat) : List (Nat × Nat) :=
  allRangesAux st S

/-- Total number of iterations that were atomically issued by a
`fetch_add` whose old value was at or past the shard end, i.e. claims that
`ClaimIterations` discarded. -/
def discardedTotal (st : SysState) (S : Nat) : Nat :=
  Finset.sum (Finset.range S) (fun s => ((st.shards s).fails.map Prod.snd).sum)

theorem advance_passed {S home cur : Nat} (P : Nat → Prop) (hh : home < S) (hc : cur < S)
    (hp : ∀ j, j < cdist S home cur → P ((home + j) % S)) (hcur : P cur) :
    (∀ j, j < cdist S home ((cur + 1) % S) → P ((home + j) % S)) ∧
    ((cur + 1) % S = home → ∀ s, s < S → P s) := by
  constructor
  · intro j hj
    by_cases hw : (cur + 1) % S = home
    · rw [hw, cdist_self hh] at hj
      omega
    · rw [cdist_advance hh hc hw] at hj
      rcases Nat.lt_or_ge j (cdist S home cur) with h | h
      · exact hp j h
      · have hje : j = cdist S home cur := by omega
        rw [hje, cdist_spec hh hc]
        exact hcur
  · intro hw s hs
    obtain ⟨j, hj, hjs⟩ := mod_surj_on hh hs
    have hS1 : cdist S home cur = S - 1 := cdist_advance_wrap hh hc hw
    rcases Nat.lt_or_ge j (S - 1) with h | h
    · rw [← hjs]
      exact hp j (by omega)
    · have hje : j = S - 1 := by omega
      rw [← hjs, hje, ← hS1, cdist_spec hh hc]
      exact hcur

theorem sum_update_add {f g : Nat → Nat} {n i d : Nat} (hi : i < n)
    (hgi : g i = f i + d) (hg : ∀ x, x ≠ i → g x = f x) :
    Finset.sum (Finset.range n) g = Finset.sum (Finset.range n) f + d := by
  have key : ∀ x ∈ Finset.range n, g x = f x + (if x = i then d else 0) := by
    intro x _
    by_cases hx : x = i
    · subst hx
      simp [hgi]
    · simp [hx, hg x hx]
  rw [Finset.sum_congr rfl key, Finset.sum_add_distrib]
  have hone : Finset.sum (Finset.range n) (fun x => if x = i then d else 0) = d := by
    rw [Finset.sum_ite_eq' (Finset.range n) i (fun _ => d)]
    simp [Finset.mem_range.mpr hi]
  rw [hone]

theorem drained_update_mono {st : SysState} {i : Nat} {sh' : LoopCounterShard}
    (hend : sh'.endv = (st.shards i).endv) (hnext : (st.shards i).next ≤ sh'.next) (s : Nat)
    (hd : (st.shards s).endv ≤ (st.shards s).next) :
    ((Function.update st.shards i sh') s).endv ≤ ((Function.update st.shards i sh') s).next := by
  by_cases hs : s = i
  · subst hs
    rw [Function.update_same]
    omega
  · rw [Function.update_noteq hs]
    exact hd

/-- Inductive invariant of the interleaving semantics.  `B` is the fixed
block size, `S` the shard count, `W` the number of dispatched work items.
The fields assert: shard cursors never run backwards and start at `s0`;
the delivered ranges of each shard form a gapless consecutive cover of
`[s0, min next endv)`; every delivered range is at most `B` wide; every
discarded fetch-add started at or past the shard end and issued exactly
`B` iterations; caller cursors are in range; every shard a caller's
cursor has moved past since leaving its home shard was drained when it
was passed; a finished caller has observed every shard drained; a caller
about to fetch-add has not previously had a fetch-add discarded on its
current shard; the discard log of a caller is duplicate-free, in-range,
and only mentions drained shards; work items beyond `W` are inert; and
the per-shard discard records are in bijection with the per-caller
ones. -/
structure Inv (B S W : Nat) (st : SysState) : Prop where
  mono : ∀ s, (st.shards s).s0 ≤ (st.shards s).next
  lower : ∀ s, (st.shards s).s0 ≤ (st.shards s).endv
  chains : ∀ s, chain (st.shards s).s0 (min (st.shards s).next (st.shards s).endv)
    (st.shards s).ranges
  widths : ∀ s r, r ∈ (st.shards s).ranges → r.2 ≤ r.1 + B
  failsSpec : ∀ s f, f ∈ (st.shards s).fails → (st.shards s).endv ≤ f.1 ∧ f.2 = B
  homeLt : ∀ c, (st.callers c).home < S
  shardLt : ∀ c, (st.callers c).shard < S
  passed : ∀ c j, j < cdist S (st.callers c).home (st.callers c).shard →
    (st.shards (((st.callers c).home + j) % S)).endv ≤
      (st.shards (((st.callers c).home + j) % S)).next
  finishedAll : ∀ c, c < W → (st.callers c).phase = Phase.finished →
    ∀ s, s < S → (st.shards s).endv ≤ (st.shards s).next
  addFresh : ∀ c, (st.callers c).phase = Phase.atAdd →
    (st.callers c).shard ∉ (st.callers c).failedShards
  failNodup : ∀ c, ((st.callers c).failedShards).Nodup
  failMem : ∀ c s, s ∈ (st.callers c).failedShards →
    s < S ∧ (st.shards s).endv ≤ (st.shards s).next
  idle : ∀ c, W ≤ c → (st.callers c).phase = Phase.finished
  sumEq : Finset.sum (Finset.range S) (fun s => (st.shards s).fails.length) =
    Finset.sum (Finset.range W) (fun c => ((st.callers c).failedShards).length)

theorem inv_update_caller {B S W : Nat} {st : SysState} {c : Nat} (h : Inv B S W st)
    (k' : Caller)
    (hhome : k'.home = (st.callers c).home)
    (hshard : k'.shard < S)
    (hpassed : ∀ j, j < cdist S k'.home k'.shard →
      (st.shards ((k'.home + j) % S)).endv ≤ (st.shards ((k'.home + j) % S)).next)
    (hfin : k'.phase = Phase.finished → ∀ s, s < S →
      (st.shards s).endv ≤ (st.shards s).next)
    (hfresh : k'.phase = Phase.atAdd → k'.shard ∉ k'.failedShards)
    (hnodup : k'.failedShards.Nodup)
    (hmem : ∀ s, s ∈ k'.failedShards → s < S ∧ (st.shards s).endv ≤ (st.shards s).next)
    (hidle : W ≤ c → k'.phase = Phase.finished)
    (hlen : k'.failedShards.length = ((st.callers c).failedShards).length) :
    Inv B S W { st with callers := Function.update st.callers c k' } := by
  refine ⟨h.mono, h.lower, h.chains, h.widths, h.failsSpec,
    ?_, ?_, ?_, ?_, ?_, ?_, ?_, ?_, ?_⟩ <;> dsimp only
  · intro x
    by_cases hx : x = c
    · rw [hx, Function.update_same, hhome]
      exact h.homeLt c
    · rw [Function.update_noteq hx]
      exact h.homeLt x
  · intro x
    by_cases hx : x = c
    · rw [hx, Function.update_same]
      exact hshard
    · rw [Function.update_noteq hx]
      exact h.shardLt x
  · intro x j
    by_cases hx : x = c
    · rw [hx, Function.update_same]
      exact hpassed j
    · rw [Function.update_noteq hx]
      exact h.passed x j
  · intro x hxW hf
    by_cases hx : x = c
    · rw [hx, Function.update_same] at hf
      exact hfin hf
    · rw [Function.update_noteq hx] at hf
      exact h.finishedAll x hxW hf
  · intro x ha
    by_cases hx : x = c
    · rw [hx, Function.update_same] at ha ⊢
      exact hfresh ha
    · rw [Function.update_noteq hx] at ha ⊢
      exact h.addFresh x ha
  · intro x
    by_cases hx : x = c
    · rw [hx, Function.update_same]
      exact hnodup
    · rw [Function.update_noteq hx]
      exact h.failNodup x
  · intro x s hms
    by_cases hx : x = c
    · rw [hx, Function.update_same] at hms
      exact hmem s hms
    · rw [Function.update_noteq hx] at hms
      exact h.failMem x s hms
  · intro x hxW
    by_cases hx : x = c
    · rw [hx, Function.update_same]
      exact hidle (hx ▸ hxW)
    · rw [Function.update_noteq hx]
      exact h.idle x hxW
  · refine h.sumEq.trans (Finset.sum_congr rfl ?_)
    intro x _
    by_cases hx : x = c
    · rw [hx, Function.update_same, hlen]
    · rw [Function.update_noteq hx]

theorem inv_precheck_pass {B S W : Nat} {st : SysState} {c : Nat} (h : Inv B S W st)
    (hlt : (st.shards (st.callers c).shard).next < (st.shards (st.callers c).shard).endv)
    (hph : (st.callers c).phase = Phase.atCheck) :
    Inv B S W { st with callers := Function.update st.callers c ({ st.callers c with phase := Phase.atAdd }) } := by
  refine inv_update_caller h _ rfl (h.shardLt c) (h.passed c) ?_ ?_ (h.failNodup c)
    (fun s hs => h.failMem c s hs) ?_ rfl
  · intro hf
    cases hf
  · intro _ hmem
    have hcontra : (st.shards (st.callers c).shard).endv ≤
        (st.shards (st.callers c).shard).next :=
      (h.failMem c _ hmem).2
    omega
  · intro hW
    have := h.idle c hW
    rw [hph] at this
    cases this

theorem inv_precheck_fail {B S W : Nat} {st : SysState} {c : Nat} (h : Inv B S W st)
    (hge : (st.shards (st.callers c).shard).endv ≤ (st.shards (st.callers c).shard).next)
    (hph : (st.callers c).phase = Phase.atCheck) :
    Inv B S W (stepAdvance S st c (st.callers c)) := by
  have hS : 0 < S := Nat.lt_of_le_of_lt (Nat.zero_le _) (h.homeLt c)
  have hadv := advance_passed (fun s => (st.shards s).endv ≤ (st.shards s).next)
    (h.homeLt c) (h.shardLt c) (h.passed c) hge
  refine inv_update_caller h _ rfl (Nat.mod_lt _ hS) hadv.1 ?_ ?_ (h.failNodup c)
    (fun s hs => h.failMem c s hs) ?_ rfl
  · intro hf
    by_cases hw : ((st.callers c).shard + 1) % S = (st.callers c).home
    · exact hadv.2 hw
    · rw [if_neg hw] at hf
      cases hf
  · intro ha
    by_cases hw : ((st.callers c).shard + 1) % S = (st.callers c).home
    · rw [if_pos hw] at ha
      cases ha
    · rw [if_neg hw] at ha
      cases ha
  · intro hW
    have := h.idle c hW
    rw [hph] at this
    cases this

theorem inv_add_success {B S W : Nat} {st : SysState} {c : Nat} (hB : 1 ≤ B) (h : Inv B S W st)
    (hlt : (st.shards (st.callers c).shard).next < (st.shards (st.callers c).shard).endv)
    (hph : (st.callers c).phase = Phase.atAdd) :
    Inv B S W { st with
      shards := Function.update st.shards (st.callers c).shard
        ({ st.shards (st.callers c).shard with
            next := (st.shards (st.callers c).shard).next + B,
            ranges := (st.shards (st.callers c).shard).ranges ++
              [((st.shards (st.callers c).shard).next,
                min (st.shards (st.callers c).shard).endv
                  ((st.shards (st.callers c).shard).next + B))] }),
      callers := Function.update st.callers c
        ({ st.callers c with phase := Phase.atCheck }) } := by
  have hnext : (st.shards (st.callers c).shard).next ≤ (st.shards (st.callers c).shard).next + B :=
    Nat.le_add_right _ _
  refine ⟨?_, ?_, ?_, ?_, ?_, ?_, ?_, ?_, ?_, ?_, ?_, ?_, ?_, ?_⟩ <;> dsimp only
  · intro s
    by_cases hs : s = (st.callers c).shard
    · rw [hs, Function.update_same]
      dsimp only
      have := h.mono (st.callers c).shard
      omega
    · rw [Function.update_noteq hs]
      exact h.mono s
  · intro s
    by_cases hs : s = (st.callers c).shard
    · rw [hs, Function.update_same]
      exact h.lower (st.callers c).shard
    · rw [Function.update_noteq hs]
      exact h.lower s
  · intro s
    by_cases hs : s = (st.callers c).shard
    · rw [hs, Function.update_same]
      dsimp only
      have hc0 := h.chains (st.callers c).shard
      rw [Nat.min_eq_left (Nat.le_of_lt hlt)] at hc0
      have hsn : (st.shards (st.callers c).shard).next <
          min (st.shards (st.callers c).shard).endv
            ((st.shards (st.callers c).shard).next + B) :=
        lt_min hlt (by omega)
      have hres := chain_snoc hc0 hsn
      rw [Nat.min_comm]
      exact hres
    · rw [Function.update_noteq hs]
      exact h.chains s
  · intro s r hr
    by_cases hs : s = (st.callers c).shard
    · rw [hs, Function.update_same] at hr
      dsimp only at hr
      rcases List.mem_append.mp hr with hr | hr
      · exact h.widths _ r hr
      · rcases List.mem_singleton.mp hr with he
        rw [he]
        dsimp only
        exact Nat.min_le_right _ _
    · rw [Function.update_noteq hs] at hr
      exact h.widths s r hr
  · intro s f hf
    by_cases hs : s = (st.callers c).shard
    · rw [hs, Function.update_same] at hf ⊢
      dsimp only at hf ⊢
      exact h.failsSpec _ f hf
    · rw [Function.update_noteq hs] at hf ⊢
      exact h.failsSpec s f hf
  · intro x
    by_cases hx : x = c
    · rw [hx, Function.update_same]
      exact h.homeLt c
    · rw [Function.update_noteq hx]
      exact h.homeLt x
  · intro x
    by_cases hx : x = c
    · rw [hx, Function.update_same]
      exact h.shardLt c
    · rw [Function.update_noteq hx]
      exact h.shardLt x
  · intro x j
    by_cases hx : x = c
    · rw [hx, Function.update_same]
      intro hj
      apply drained_update_mono
      · rfl
      · exact hnext
      · exact h.passed c j hj
    · rw [Function.update_noteq hx]
      intro hj
      apply drained_update_mono
      · rfl
      · exact hnext
      · exact h.passed x j hj
  · intro x hxW hf
    by_cases hx : x = c
    · rw [hx, Function.update_same] at hf
      cases hf
    · rw [Function.update_noteq hx] at hf
      intro s hs
      apply drained_update_mono
      · rfl
      · exact hnext
      · exact h.finishedAll x hxW hf s hs
  · intro x ha
    by_cases hx : x = c
    · rw [hx, Function.update_same] at ha
      cases ha
    · rw [Function.update_noteq hx] at ha ⊢
      exact h.addFresh x ha
  · intro x
    by_cases hx : x = c
    · rw [hx, Function.update_same]
      exact h.failNodup c
    · rw [Function.update_noteq hx]
      exact h.failNodup x
  · intro x s hms
    by_cases hx : x = c
    · rw [hx, Function.update_same] at hms
      refine ⟨(h.failMem c s hms).1, ?_⟩
      apply drained_update_mono
      · rfl
      · exact hnext
      · exact (h.failMem c s hms).2
    · rw [Function.update_noteq hx] at hms
      refine ⟨(h.failMem x s hms).1, ?_⟩
      apply drained_update_mono
      · rfl
      · exact hnext
      · exact (h.failMem x s hms).2
  · intro x hxW
    by_cases hx : x = c
    · have := h.idle c (hx ▸ hxW)
      rw [hph] at this
      cases this
    · rw [Function.update_noteq hx]
      exact h.idle x hxW
  · have hL : Finset.sum (Finset.range S)
        (fun s => ((Function.update st.shards (st.callers c).shard
          ({ st.shards (st.callers c).shard with
              next := (st.shards (st.callers c).shard).next + B,
              ranges := (st.shards (st.callers c).shard).ranges ++
                [((st.shards (st.callers c).shard).next,
                  min (st.shards (st.callers c).shard).endv
                    ((st.shards (st.callers c).shard).next + B))] })) s).fails.length) =
        Finset.sum (Finset.range S) (fun s => (st.shards s).fails.length) := by
      refine Finset.sum_congr rfl ?_
      intro s _
      by_cases hs : s = (st.callers c).shard
      · rw [hs, Function.update_same]
      · rw [Function.update_noteq hs]
    have hR : Finset.sum (Finset.range W)
        (fun x => ((Function.update st.callers c
          ({ st.callers c with phase := Phase.atCheck }) x).failedShards).length) =
        Finset.sum (Finset.range W) (fun x => ((st.callers x).failedShards).length) := by
      refine Finset.sum_congr rfl ?_
      intro x _
      by_cases hx : x = c
      · rw [hx, Function.update_same]
      · rw [Function.update_noteq hx]
    rw [hL, hR]
    exact h.sumEq

theorem drained_update_fail {st : SysState} {i B : Nat} (s : Nat)
    (hs : (st.shards s).endv ≤ (st.shards s).next) :
    ((Function.update st.shards i
      ({ st.shards i with
          next := (st.shards i).next + B,
          fails := (st.shards i).fails ++ [((st.shards i).next, B)] })) s).endv ≤
    ((Function.update st.shards i
      ({ st.shards i with
          next := (st.shards i).next + B,
          fails := (st.shards i).fails ++ [((st.shards i).next, B)] })) s).next := by
  apply drained_update_mono
  · rfl
  · exact Nat.le_add_right _ _
  · exact hs

theorem inv_add_fail {B S W : Nat} {st : SysState} {c : Nat} (hB : 1 ≤ B) (h : Inv B S W st)
    (hge : (st.shards (st.callers c).shard).endv ≤ (st.shards (st.callers c).shard).next)
    (hph : (st.callers c).phase = Phase.atAdd) :
    Inv B S W (stepAdvance S
      ({ st with
          shards := Function.update st.shards (st.callers c).shard
            ({ st.shards (st.callers c).shard with
                next := (st.shards (st.callers c).shard).next + B,
                fails := (st.shards (st.callers c).shard).fails ++
                  [((st.shards (st.callers c).shard).next, B)] }) })
      c
      ({ st.callers c with
          failedShards := (st.callers c).shard :: (st.callers c).failedShards })) := by
  have hS : 0 < S := Nat.lt_of_le_of_lt (Nat.zero_le _) (h.homeLt c)
  have hcW : c < W := by
    rcases Nat.lt_or_ge c W with h' | h'
    · exact h'
    · have := h.idle c h'
      rw [hph] at this
      cases this
  set u := Function.update st.shards (st.callers c).shard
    ({ st.shards (st.callers c).shard with
        next := (st.shards (st.callers c).shard).next + B,
        fails := (st.shards (st.callers c).shard).fails ++
          [((st.shards (st.callers c).shard).next, B)] }) with hu
  have hPu : ∀ s, (st.shards s).endv ≤ (st.shards s).next → (u s).endv ≤ (u s).next := by
    intro s hs
    rw [hu]
    exact drained_update_fail s hs
  have hcur : (u (st.callers c).shard).endv ≤ (u (st.callers c).shard).next := by
    rw [hu, Function.update_same]
    dsimp only
    omega
  have hadv := advance_passed (fun s => (u s).endv ≤ (u s).next) (h.homeLt c) (h.shardLt c)
    (fun j hj => hPu _ (h.passed c j hj)) hcur
  unfold stepAdvance
  refine ⟨?_, ?_, ?_, ?_, ?_, ?_, ?_, ?_, ?_, ?_, ?_, ?_, ?_, ?_⟩ <;> dsimp only
  · intro s
    by_cases hs : s = (st.callers c).shard
    · rw [hu, hs, Function.update_same]
      dsimp only
      have := h.mono (st.callers c).shard
      omega
    · rw [hu, Function.update_noteq hs]
      exact h.mono s
  · intro s
    by_cases hs : s = (st.callers c).shard
    · rw [hu, hs, Function.update_same]
      exact h.lower (st.callers c).shard
    · rw [hu, Function.update_noteq hs]
      exact h.lower s
  · intro s
    by_cases hs : s = (st.callers c).shard
    · rw [hu, hs, Function.update_same]
      dsimp only
      have hc0 := h.chains (st.callers c).shard
      rw [Nat.min_eq_right hge] at hc0
      rw [Nat.min_eq_right (by omega)]
      exact hc0
    · rw [hu, Function.update_noteq hs]
      exact h.chains s
  · intro s r hr
    by_cases hs : s = (st.callers c).shard
    · rw [hu, hs, Function.update_same] at hr
      dsimp only at hr
      exact h.widths _ r hr
    · rw [hu, Function.update_noteq hs] at hr
      exact h.widths s r hr
  · intro s f hf
    by_cases hs : s = (st.callers c).shard
    · rw [hu, hs, Function.update_same] at hf ⊢
      dsimp only at hf ⊢
      rcases List.mem_append.mp hf with hf | hf
      · exact h.failsSpec _ f hf
      · rcases List.mem_singleton.mp hf with he
        rw [he]
        exact ⟨hge, rfl⟩
    · rw [hu, Function.update_noteq hs] at hf ⊢
      exact h.failsSpec s f hf
  · intro x
    by_cases hx : x = c
    · rw [hx, Function.update_same]
      exact h.homeLt c
    · rw [Function.update_noteq hx]
      exact h.homeLt x
  · intro x
    by_cases hx : x = c
    · rw [hx, Function.update_same]
      exact Nat.mod_lt _ hS
    · rw [Function.update_noteq hx]
      exact h.shardLt x
  · intro x j
    by_cases hx : x = c
    · rw [hx, Function.update_same]
      exact hadv.1 j
    · rw [Function.update_noteq hx]
      intro hj
      exact hPu _ (h.passed x j hj)
  · intro x hxW hf
    by_cases hx : x = c
    · rw [hx, Function.update_same] at hf
      dsimp only at hf
      split at hf
      · rename_i hwrap
        exact hadv.2 hwrap
      · cases hf
    · rw [Function.update_noteq hx] at hf
      intro s hs
      exact hPu _ (h.finishedAll x hxW hf s hs)
  · intro x ha
    by_cases hx : x = c
    · rw [hx, Function.update_same] at ha
      dsimp only at ha
      split at ha <;> cases ha
    · rw [Function.update_noteq hx] at ha ⊢
      exact h.addFresh x ha
  · intro x
    by_cases hx : x = c
    · rw [hx, Function.update_same]
      dsimp only
      exact List.nodup_cons.mpr ⟨h.addFresh c hph, h.failNodup c⟩
    · rw [Function.update_noteq hx]
      exact h.failNodup x
  · intro x s hms
    by_cases hx : x = c
    · rw [hx, Function.update_same] at hms
      dsimp only at hms
      rcases List.mem_cons.mp hms with he | hms
      · rw [he]
        exact ⟨h.shardLt c, hcur⟩
      · exact ⟨(h.failMem c s hms).1, hPu _ (h.failMem c s hms).2⟩
    · rw [Function.update_noteq hx] at hms
      exact ⟨(h.failMem x s hms).1, hPu _ (h.failMem x s hms).2⟩
  · intro x hxW
    by_cases hx : x = c
    · exact absurd (hx ▸ hxW) (Nat.not_le_of_lt hcW)
    · rw [Function.update_noteq hx]
      exact h.idle x hxW
  · have hL : Finset.sum (Finset.range S) (fun s => (u s).fails.length) =
        Finset.sum (Finset.range S) (fun s => (st.shards s).fails.length) + 1 := by
      refine sum_update_add (h.shardLt c) ?_ ?_
      · rw [hu, Function.update_same]
        dsimp only
        rw [List.length_append]
        rfl
      · intro x hx
        rw [hu, Function.update_noteq hx]
    have hR : ∀ k' : Caller,
        k'.failedShards = (st.callers c).shard :: (st.callers c).failedShards →
        Finset.sum (Finset.range W)
          (fun x => ((Function.update st.callers c k' x).failedShards).length) =
        Finset.sum (Finset.range W) (fun x => ((st.callers x).failedShards).length) + 1 := by
      intro k' hk'
      refine sum_update_add hcW ?_ ?_
      · rw [Function.update_same, hk', List.length_cons]
      · intro x hx
        rw [Function.update_noteq hx]
    rw [hL, h.sumEq, hR _ rfl]

theorem inv_step {B S W : Nat} {st : SysState} (hB : 1 ≤ B) (h : Inv B S W st) (c : Nat) :
    Inv B S W (step B S st c) := by
  cases hph : (st.callers c).phase
  · simp only [step, hph]
    split
    · exact inv_precheck_pass h (by assumption) hph
    · exact inv_precheck_fail h (Nat.le_of_not_lt (by assumption)) hph
  · simp only [step, hph]
    split
    · exact inv_add_success hB h (by assumption) hph
    · exact inv_add_fail hB h (Nat.le_of_not_lt (by assumption)) hph
  · simp only [step, hph]
    exact h

theorem inv_run (B S W : Nat) (sched : List Nat) (st : SysState) (hB : 1 ≤ B)
    (h : Inv B S W st) : Inv B S W (run B S st sched) := by
  induction sched generalizing st with
  | nil => exact h
  | cons c cs ih => exact ih (step B S st c) (inv_step hB h c)

theorem step_const (B S : Nat) (st : SysState) (c s : Nat) :
    ((step B S st c).shards s).s0 = (st.shards s).s0 ∧
    ((step B S st c).shards s).endv = (st.shards s).endv := by
  cases hph : (st.callers c).phase <;> simp only [step, stepAdvance, hph]
  · split
    · exact ⟨rfl, rfl⟩
    · exact ⟨rfl, rfl⟩
  · split
    · by_cases hs : s = (st.callers c).shard
      · rw [hs]
        dsimp only
        rw [Function.update_same]
        exact ⟨rfl, rfl⟩
      · dsimp only
        rw [Function.update_noteq hs]
        exact ⟨rfl, rfl⟩
    · by_cases hs : s = (st.callers c).shard
      · rw [hs]
        dsimp only
        rw [Function.update_same]
        exact ⟨rfl, rfl⟩
      · dsimp only
        rw [Function.update_noteq hs]
        exact ⟨rfl, rfl⟩
  · exact ⟨trivial, trivial⟩

theorem run_const (B S : Nat) (sched : List Nat) (st : SysState) (s : Nat) :
    ((run B S st sched).shards s).s0 = (st.shards s).s0 ∧
    ((run B S st sched).shards s).endv = (st.shards s).endv := by
  induction sched generalizing st with
  | nil => exact ⟨rfl, rfl⟩
  | cons c cs ih =>
    have h1 := step_const B S st c s
    have h2 := ih (step B S st c)
    exact ⟨h2.1.trans h1.1, h2.2.trans h1.2⟩

theorem GetNumShards_pos (N dOfP B : Nat) (hd : 1 ≤ dOfP) : 1 ≤ GetNumShards N dOfP B := by
  unfold GetNumShards
  dsimp only
  generalize N / B = nb
  split_ifs <;> omega

theorem ips_mul_le (N dOfP B : Nat) :
    (GetNumShards N dOfP B) * iterationsPerShard N dOfP B ≤ N := by
  unfold iterationsPerShard
  calc (GetNumShards N dOfP B) * ((N / B / GetNumShards N dOfP B) * B)
      = ((N / B / GetNumShards N dOfP B) * (GetNumShards N dOfP B)) * B := by ring
    _ ≤ (N / B) * B := Nat.mul_le_mul_right _ (Nat.div_mul_le_self _ _)
    _ ≤ N := Nat.div_mul_le_self _ _

theorem initShard_lower (N dOfP B s : Nat) :
    (initShard N dOfP B s).s0 ≤ (initShard N dOfP B s).endv := by
  unfold initShard
  dsimp only
  split
  · dsimp only
    split
    · rename_i hsS hlast
      have h1 : s * iterationsPerShard N dOfP B ≤
          (GetNumShards N dOfP B) * iterationsPerShard N dOfP B :=
        Nat.mul_le_mul_right _ (by omega)
      have h2 := ips_mul_le N dOfP B
      omega
    · exact Nat.mul_le_mul_right _ (by omega)
  · exact Nat.le_refl 0

theorem initShard_fields (N dOfP B s : Nat) :
    (initShard N dOfP B s).next = (initShard N dOfP B s).s0 ∧
    (initShard N dOfP B s).ranges = [] ∧ (initShard N dOfP B s).fails = [] := by
  unfold initShard
  dsimp only
  split <;> exact ⟨rfl, rfl, rfl⟩

theorem inv_init (N dOfP B W : Nat) (hd : 1 ≤ dOfP) :
    Inv B (GetNumShards N dOfP B) W (initState N dOfP B W) := by
  have hS := GetNumShards_pos N dOfP B hd
  refine ⟨?_, ?_, ?_, ?_, ?_, ?_, ?_, ?_, ?_, ?_, ?_, ?_, ?_, ?_⟩
  · intro s
    show (initShard N dOfP B s).s0 ≤ (initShard N dOfP B s).next
    rw [(initShard_fields N dOfP B s).1]
  · intro s
    exact initShard_lower N dOfP B s
  · intro s
    show chain (initShard N dOfP B s).s0
      (min (initShard N dOfP B s).next (initShard N dOfP B s).endv)
      (initShard N dOfP B s).ranges
    rw [(initShard_fields N dOfP B s).2.1, (initShard_fields N dOfP B s).1,
      Nat.min_eq_left (initShard_lower N dOfP B s)]
    rfl
  · intro s r hr
    rw [show (initState N dOfP B W).shards s = initShard N dOfP B s from rfl,
      (initShard_fields N dOfP B s).2.1] at hr
    cases hr
  · intro s f hf
    rw [show (initState N dOfP B W).shards s = initShard N dOfP B s from rfl,
      (initShard_fields N dOfP B s).2.2] at hf
    cases hf
  · intro c
    show (initCaller (GetNumShards N dOfP B) W c).home < GetNumShards N dOfP B
    unfold initCaller
    split
    · exact Nat.mod_lt _ hS
    · exact hS
  · intro c
    show (initCaller (GetNumShards N dOfP B) W c).shard < GetNumShards N dOfP B
    unfold initCaller
    split
    · exact Nat.mod_lt _ hS
    · exact hS
  · intro c j hj
    exfalso
    revert hj
    show ¬ (j < cdist (GetNumShards N dOfP B)
      (initCaller (GetNumShards N dOfP B) W c).home
      (initCaller (GetNumShards N dOfP B) W c).shard)
    unfold initCaller
    split
    · dsimp only
      rw [cdist_self (Nat.mod_lt _ hS)]
      omega
    · dsimp only
      rw [cdist_self hS]
      omega
  · intro c hcW hfin
    have : (initCaller (GetNumShards N dOfP B) W c).phase = Phase.finished := hfin
    unfold initCaller at this
    rw [if_pos hcW] at this
    cases this
  · intro c ha
    have : (initCaller (GetNumShards N dOfP B) W c).phase = Phase.atAdd := ha
    unfold initCaller at this
    split at this <;> cases this
  · intro c
    show ((initCaller (GetNumShards N dOfP B) W c).failedShards).Nodup
    unfold initCaller
    split <;> exact List.nodup_nil
  · intro c s hm
    have : s ∈ (initCaller (GetNumShards N dOfP B) W c).failedShards := hm
    unfold initCaller at this
    split at this <;> cases this
  · intro c hWc
    show (initCaller (GetNumShards N dOfP B) W c).phase = Phase.finished
    unfold initCaller
    rw [if_neg (by omega)]
  · have hLz : ∀ s ∈ Finset.range (GetNumShards N dOfP B),
        (initShard N dOfP B s).fails.length = 0 := by
      intro s _
      rw [(initShard_fields N dOfP B s).2.2]
      rfl
    have hRz : ∀ c ∈ Finset.range W,
        ((initCaller (GetNumShards N dOfP B) W c).failedShards).length = 0 := by
      intro c _
      show ((initCaller (GetNumShards N dOfP B) W c).failedShards).length = 0
      unfold initCaller
      split <;> rfl
    exact (Finset.sum_eq_zero hLz).trans (Finset.sum_eq_zero hRz).symm

theorem initShard_s0 (N dOfP B s : Nat) (hs : s < GetNumShards N dOfP B) :
    (initShard N dOfP B s).s0 = shardLowerBound N dOfP B s := by
  unfold initShard shardLowerBound
  dsimp only
  rw [if_pos hs, if_pos hs]

theorem initShard_endv (N dOfP B s : Nat) (hs : s < GetNumShards N dOfP B) :
    (initShard N dOfP B s).endv = shardLowerBound N dOfP B (s + 1) := by
  unfold initShard shardLowerBound
  dsimp only
  rw [if_pos hs]
  dsimp only
  by_cases hlast : s = GetNumShards N dOfP B - 1
  · rw [if_pos hlast, if_neg (by omega)]
  · rw [if_neg hlast, if_pos (by omega)]

theorem shardLowerBound_zero (N dOfP B : Nat) (hS : 1 ≤ GetNumShards N dOfP B) :
    shardLowerBound N dOfP B 0 = 0 := by
  unfold shardLowerBound
  have h0 : 0 < GetNumShards N dOfP B := hS
  rw [if_pos h0]
  exact Nat.zero_mul _

theorem shardLowerBound_top (N dOfP B : Nat) :
    shardLowerBound N dOfP B (GetNumShards N dOfP B) = N := by
  unfold shardLowerBound
  rw [if_neg (Nat.lt_irrefl _)]

theorem chain_allRangesAux (fin : SysState) (bnd : Nat → Nat) (n : Nat)
    (h : ∀ s, s < n → chain (bnd s) (bnd (s + 1)) ((fin.shards s).ranges)) :
    chain (bnd 0) (bnd n) (allRangesAux fin n) := by
  induction n with
  | zero => rfl
  | succ m ih =>
    exact chain_append (ih (fun s hs => h s (by omega))) (h m (by omega))

/-- State of the loop after running schedule `sched` from a fresh
`LoopCounter(N, d_of_p, B)` with `W` work items. -/
def finalState (N dOfP B W : Nat) (sched : List Nat) : SysState :=
  run B (GetNumShards N dOfP B) (initState N dOfP B W) sched

/-- Delivered ranges of the whole loop form a single consecutive cover of
`[0, N)` once every shard is drained. -/
theorem finalState_chain (N dOfP B W : Nat) (hd : 1 ≤ dOfP) (hB : 1 ≤ B)
    (sched : List Nat)
    (hdr : ∀ s, s < GetNumShards N dOfP B →
      ((finalState N dOfP B W sched).shards s).endv ≤
      ((finalState N dOfP B W sched).shards s).next) :
    chain 0 N (allRanges (finalState N dOfP B W sched) (GetNumShards N dOfP B)) := by
  unfold finalState at hdr ⊢
  have hS := GetNumShards_pos N dOfP B hd
  have hInv := inv_run B (GetNumShards N dOfP B) W sched (initState N dOfP B W) hB
    (inv_init N dOfP B W hd)
  have hstep : ∀ s, s < GetNumShards N dOfP B →
      chain (shardLowerBound N dOfP B s) (shardLowerBound N dOfP B (s + 1))
        (((run B (GetNumShards N dOfP B) (initState N dOfP B W) sched).shards s).ranges) := by
    intro s hs
    have hc := hInv.chains s
    have hconst := run_const B (GetNumShards N dOfP B) sched (initState N dOfP B W) s
    have hmin : min ((run B (GetNumShards N dOfP B) (initState N dOfP B W) sched).shards s).next
        ((run B (GetNumShards N dOfP B) (initState N dOfP B W) sched).shards s).endv =
        ((run B (GetNumShards N dOfP B) (initState N dOfP B W) sched).shards s).endv :=
      Nat.min_eq_right (hdr s hs)
    rw [hmin] at hc
    rw [hconst.1, hconst.2,
      show (initState N dOfP B W).shards s = initShard N dOfP B s from rfl,
      initShard_s0 N dOfP B s hs, initShard_endv N dOfP B s hs] at hc
    exact hc
  have hglobal := chain_allRangesAux (run B (GetNumShards N dOfP B) (initState N dOfP B W) sched)
    (shardLowerBound N dOfP B) (GetNumShards N dOfP B) hstep
  rw [shardLowerBound_zero N dOfP B hS, shardLowerBound_top N dOfP B] at hglobal
  exact hglobal

/-- Any finished caller has observed every shard drained, and shard
cursors only grow, so once every caller is finished every shard is
drained. -/
theorem finalState_drained (N dOfP B W : Nat) (hd : 1 ≤ dOfP) (hB : 1 ≤ B) (hW : 1 ≤ W)
    (sched : List Nat)
    (hfin : ∀ c, c < W → ((finalState N dOfP B W sched).callers c).phase = Phase.finished) :
    ∀ s, s < GetNumShards N dOfP B →
      ((finalState N dOfP B W sched).shards s).endv ≤
      ((finalState N dOfP B W sched).shards s).next := by
  have hInv := inv_run B (GetNumShards N dOfP B) W sched (initState N dOfP B W) hB
    (inv_init N dOfP B W hd)
  exact hInv.finishedAll 0 (by omega) (hfin 0 (by omega))

theorem sum_snd_const {B : Nat} : ∀ (l : List (Nat × Nat)), (∀ f ∈ l, f.2 = B) →
    (l.map Prod.snd).sum = B * l.length := by
  intro l
  induction l with
  | nil =>
    intro _
    simp
  | cons f fs ih =>
    intro h
    simp only [List.map_cons, List.sum_cons, List.length_cons]
    rw [h f (List.mem_cons_self f fs), ih (fun g hg => h g (List.mem_cons_of_mem f hg))]
    ring

theorem failedShards_le {B S W : Nat} {st : SysState} (h : Inv B S W st) (c : Nat) :
    ((st.callers c).failedShards).length ≤ S := by
  have hsub : (st.callers c).failedShards ⊆ List.range S := by
    intro s hs
    exact List.mem_range.mpr (h.failMem c s hs).1
  have hlen := (List.subperm_of_subset (h.failNodup c) hsub).length_le
  simpa using hlen

/-- C1: with `N ≥ 0`, `B ≥ 1`, `d_of_p ≥ 1`, `W ≥ 1` work items and ANY
interleaving of the callers' atomic operations after which every caller
has seen the counter drained, the ranges returned across all callers
contain every integer of `[0, N)` exactly once (each is in exactly one
returned range), every returned range lies inside `[0, N)`, and the
returned ranges are pairwise disjoint. -/
theorem ClaimC1 (N dOfP B W : Nat) (hd : 1 ≤ dOfP) (hB : 1 ≤ B) (hW : 1 ≤ W)
    (sched : List Nat)
    (hdrained : ∀ c, c < W →
      ((finalState N dOfP B W sched).callers c).phase = Phase.finished) :
    (∀ x, x < N → ∃! r, r ∈ allRanges (finalState N dOfP B W sched) (GetNumShards N dOfP B) ∧
      r.1 ≤ x ∧ x < r.2) ∧
    (∀ r, r ∈ allRanges (finalState N dOfP B W sched) (GetNumShards N dOfP B) →
      r.1 < r.2 ∧ r.2 ≤ N) ∧
    (allRanges (finalState N dOfP B W sched) (GetNumShards N dOfP B)).Pairwise
      (fun a b => a.2 ≤ b.1 ∨ b.2 ≤ a.1) := by
  have hch := finalState_chain N dOfP B W hd hB sched
    (finalState_drained N dOfP B W hd hB hW sched hdrained)
  refine ⟨?_, ?_, ?_⟩
  · intro x hx
    exact chain_exists_unique hch (Nat.zero_le x) hx
  · intro r hr
    have hm := chain_mem hch hr
    exact ⟨hm.2.1, hm.2.2⟩
  · exact (chain_pairwise hch).imp (fun h => Or.inl h)

/-- C2: every range delivered by a successful `ClaimIterations` with block
size `B` has width in `[1, B]`, satisfies `start < end ≤ shard.end`, and
lies entirely inside the claimed shard's sub-range (it never crosses a
shard boundary).  This holds after any schedule, drained or not. -/
theorem ClaimC2 (N dOfP B W : Nat) (hd : 1 ≤ dOfP) (hB : 1 ≤ B) (sched : List Nat) :
    ∀ s, s < GetNumShards N dOfP B →
    ∀ r ∈ ((finalState N dOfP B W sched).shards s).ranges,
      1 ≤ r.2 - r.1 ∧ r.2 - r.1 ≤ B ∧
      ((finalState N dOfP B W sched).shards s).s0 ≤ r.1 ∧
      r.1 < r.2 ∧ r.2 ≤ ((finalState N dOfP B W sched).shards s).endv := by
  unfold finalState
  intro s hs r hr
  have hInv := inv_run B (GetNumShards N dOfP B) W sched (initState N dOfP B W) hB
    (inv_init N dOfP B W hd)
  have hm := chain_mem (hInv.chains s) hr
  have hw := hInv.widths s r hr
  have hmin : min ((run B (GetNumShards N dOfP B) (initState N dOfP B W) sched).shards s).next
      ((run B (GetNumShards N dOfP B) (initState N dOfP B W) sched).shards s).endv ≤
      ((run B (GetNumShards N dOfP B) (initState N dOfP B W) sched).shards s).endv :=
    Nat.min_le_right _ _
  exact ⟨by omega, by omega, hm.1, hm.2.1, by omega⟩

/-- C3: `LoopCounter` construction chooses
`S = min(max(1, N / B), min(8, d_of_p))` shards; shard `s < S - 1` starts
at `s * iterations_per_shard` and has exactly
`iterations_per_shard = (N / B / S) * B` iterations; the last shard ends
at `N`; and the shard widths sum to `N`. -/
theorem ClaimC3 (N dOfP B : Nat) (hd : 1 ≤ dOfP) (hB : 1 ≤ B) :
    GetNumShards N dOfP B = min (max 1 (N / B)) (min 8 dOfP) ∧
    (∀ s, s < GetNumShards N dOfP B →
      (initShard N dOfP B s).s0 = s * ((N / B / GetNumShards N dOfP B) * B)) ∧
    (∀ s, s + 1 < GetNumShards N dOfP B →
      (initShard N dOfP B s).endv - (initShard N dOfP B s).s0 =
        (N / B / GetNumShards N dOfP B) * B) ∧
    (initShard N dOfP B (GetNumShards N dOfP B - 1)).endv = N ∧
    Finset.sum (Finset.range (GetNumShards N dOfP B))
      (fun s => (initShard N dOfP B s).endv - (initShard N dOfP B s).s0) = N := by
  have hS := GetNumShards_pos N dOfP B hd
  have hips := ips_mul_le N dOfP B
  refine ⟨?_, ?_, ?_, ?_, ?_⟩
  · unfold GetNumShards
    dsimp only
    generalize N / B = nb
    split_ifs <;> omega
  · intro s hs
    unfold initShard
    dsimp only
    rw [if_pos hs]
    rfl
  · intro s hs1
    have hs : s < GetNumShards N dOfP B := by omega
    have hne : s ≠ GetNumShards N dOfP B - 1 := by omega
    unfold initShard
    dsimp only
    rw [if_pos hs]
    dsimp only
    rw [if_neg hne]
    have hmul : (s + 1) * iterationsPerShard N dOfP B =
        s * iterationsPerShard N dOfP B + iterationsPerShard N dOfP B := by ring
    unfold iterationsPerShard at hmul ⊢
    omega
  · unfold initShard
    dsimp only
    rw [if_pos (by omega)]
    dsimp only
    rw [if_pos (by omega)]
  · obtain ⟨S', hS'⟩ : ∃ S', GetNumShards N dOfP B = S' + 1 :=
      ⟨GetNumShards N dOfP B - 1, by omega⟩
    have hwidth : ∀ s ∈ Finset.range S',
        (initShard N dOfP B s).endv - (initShard N dOfP B s).s0 =
        iterationsPerShard N dOfP B := by
      intro s hsr
      have hsm := Finset.mem_range.mp hsr
      have hsS : s < GetNumShards N dOfP B := by omega
      have hne : s ≠ GetNumShards N dOfP B - 1 := by omega
      unfold initShard
      dsimp only
      rw [if_pos hsS]
      dsimp only
      rw [if_neg hne]
      have hmul : (s + 1) * iterationsPerShard N dOfP B =
          s * iterationsPerShard N dOfP B + iterationsPerShard N dOfP B := by ring
      omega
    have hlast_endv : (initShard N dOfP B S').endv = N := by
      unfold initShard
      dsimp only
      rw [if_pos (by omega)]
      dsimp only
      rw [if_pos (by omega)]
    have hlast_s0 : (initShard N dOfP B S').s0 = S' * iterationsPerShard N dOfP B := by
      unfold initShard
      dsimp only
      rw [if_pos (by omega)]
    have hle : S' * iterationsPerShard N dOfP B ≤ N := by
      have h1 : S' * iterationsPerShard N dOfP B ≤
          (GetNumShards N dOfP B) * iterationsPerShard N dOfP B :=
        Nat.mul_le_mul_right _ (by omega)
      omega
    rw [hS', Finset.sum_range_succ, Finset.sum_congr rfl hwidth, Finset.sum_const,
      Finset.card_range, smul_eq_mul, hlast_endv, hlast_s0]
    omega

/-- C6 counterexample: with `N = 1`, `B = 1`, `d_of_p = 2` (so a single
shard, `S = 1`) and two concurrent callers, the schedule in which both
callers pass the pre-check before either performs its fetch-add makes the
loser's fetch-add issue and discard 1 iteration, exceeding the claimed
bound `S * (B - 1) = 0` even though both callers finish drained. -/
theorem ClaimC6_counterexample :
    discardedTotal (finalState 1 2 1 2 [0, 1, 0, 1, 0]) (GetNumShards 1 2 1) = 1 ∧
    (∀ c, c < 2 → ((finalState 1 2 1 2 [0, 1, 0, 1, 0]).callers c).phase = Phase.finished) ∧
    GetNumShards 1 2 1 * (1 - 1) = 0 ∧
    ¬ (discardedTotal (finalState 1 2 1 2 [0, 1, 0, 1, 0]) (GetNumShards 1 2 1) ≤
        GetNumShards 1 2 1 * (1 - 1)) := by
  decide

/-- C6, amended: each caller has at most one discarded fetch-add per
shard, each discarded fetch-add issues exactly `B` iterations at or past
the shard end, so across every interleaving of `W` callers the total
number of iterations issued by discarded fetch-adds is at most
`B * W * S` (not `S * (B - 1)`); no discarded claim delivers any
iteration to `fn` (every executed range on the shard ends at or before
the discarded claim's start). -/
theorem ClaimC6_amended (N dOfP B W : Nat) (hd : 1 ≤ dOfP) (hB : 1 ≤ B) (sched : List Nat) :
    discardedTotal (finalState N dOfP B W sched) (GetNumShards N dOfP B) ≤
      B * (W * GetNumShards N dOfP B) ∧
    (∀ s, s < GetNumShards N dOfP B →
      ∀ f ∈ ((finalState N dOfP B W sched).shards s).fails,
        ((finalState N dOfP B W sched).shards s).endv ≤ f.1 ∧ f.2 = B ∧
        ∀ r ∈ ((finalState N dOfP B W sched).shards s).ranges, r.2 ≤ f.1) := by
  unfold finalState
  have hInv := inv_run B (GetNumShards N dOfP B) W sched (initState N dOfP B W) hB
    (inv_init N dOfP B W hd)
  constructor
  · unfold discardedTotal
    have h1 : Finset.sum (Finset.range (GetNumShards N dOfP B))
        (fun s => (((run B (GetNumShards N dOfP B) (initState N dOfP B W) sched).shards
          s).fails.map Prod.snd).sum) =
        Finset.sum (Finset.range (GetNumShards N dOfP B))
        (fun s => B * ((run B (GetNumShards N dOfP B) (initState N dOfP B W)
          sched).shards s).fails.length) := by
      refine Finset.sum_congr rfl ?_
      intro s _
      exact sum_snd_const _ (fun f hf => (hInv.failsSpec s f hf).2)
    rw [h1, ← Finset.mul_sum, hInv.sumEq]
    have h2 : Finset.sum (Finset.range W)
        (fun c => (((run B (GetNumShards N dOfP B) (initState N dOfP B W)
          sched).callers c).failedShards).length) ≤ W * GetNumShards N dOfP B := by
      have h3 := Finset.sum_le_card_nsmul (Finset.range W)
        (fun c => (((run B (GetNumShards N dOfP B) (initState N dOfP B W)
          sched).callers c).failedShards).length) (GetNumShards N dOfP B)
        (fun c _ => failedShards_le hInv c)
      rw [Finset.card_range, smul_eq_mul] at h3
      exact h3
    exact Nat.mul_le_mul_left B h2
  · intro s hs f hf
    have hspec := hInv.failsSpec s f hf
    refine ⟨hspec.1, hspec.2, ?_⟩
    intro r hr
    have hm := chain_mem (hInv.chains s) hr
    have hmin : min ((run B (GetNumShards N dOfP B) (initState N dOfP B W) sched).shards s).next
        ((run B (GetNumShards N dOfP B) (initState N dOfP B W) sched).shards s).endv ≤
        ((run B (GetNumShards N dOfP B) (initState N dOfP B W) sched).shards s).endv :=
      Nat.min_le_right _ _
    omega

/-- Witness for C1: a concrete two-iteration loop with one caller, driven
to drained, covering `[0, 2)` exactly. -/
theorem ClaimC1_witness :
    (1 ≤ 1) ∧
    (∀ c, c < 1 → ((finalState 2 1 1 1 [0, 0, 0, 0, 0]).callers c).phase = Phase.finished) ∧
    ((∀ x, x < 2 → ∃! r, r ∈ allRanges (finalState 2 1 1 1 [0, 0, 0, 0, 0])
        (GetNumShards 2 1 1) ∧ r.1 ≤ x ∧ x < r.2) ∧
     (∀ r, r ∈ allRanges (finalState 2 1 1 1 [0, 0, 0, 0, 0]) (GetNumShards 2 1 1) →
        r.1 < r.2 ∧ r.2 ≤ 2) ∧
     (allRanges (finalState 2 1 1 1 [0, 0, 0, 0, 0]) (GetNumShards 2 1 1)).Pairwise
        (fun a b => a.2 ≤ b.1 ∨ b.2 ≤ a.1)) :=
  ⟨by decide, by decide,
    ClaimC1 2 1 1 1 (by decide) (by decide) (by decide) [0, 0, 0, 0, 0] (by decide)⟩

/-- Witness for C2: a concrete claim of the range `[0, 2)` with block
size 2 satisfies the claimed bounds. -/
theorem ClaimC2_witness :
    (1 ≤ 2) ∧ (1 ≤ 2) ∧
    (∀ s, s < GetNumShards 5 2 2 →
      ∀ r ∈ ((finalState 5 2 2 1 [0, 0]).shards s).ranges,
        1 ≤ r.2 - r.1 ∧ r.2 - r.1 ≤ 2 ∧
        ((finalState 5 2 2 1 [0, 0]).shards s).s0 ≤ r.1 ∧
        r.1 < r.2 ∧ r.2 ≤ ((finalState 5 2 2 1 [0, 0]).shards s).endv) :=
  ⟨by decide, by decide, ClaimC2 5 2 2 1 (by decide) (by decide) [0, 0]⟩

/-- Witness for C3: the construction facts instantiated at
`N = 10`, `d_of_p = 3`, `B = 2` (three shards of widths 2, 2, 6). -/
theorem ClaimC3_witness :
    (1 ≤ 3) ∧ (1 ≤ 2) ∧
    (GetNumShards 10 3 2 = min (max 1 (10 / 2)) (min 8 3) ∧
     (∀ s, s < GetNumShards 10 3 2 →
       (initShard 10 3 2 s).s0 = s * ((10 / 2 / GetNumShards 10 3 2) * 2)) ∧
     (∀ s, s + 1 < GetNumShards 10 3 2 →
       (initShard 10 3 2 s).endv - (initShard 10 3 2 s).s0 =
         (10 / 2 / GetNumShards 10 3 2) * 2) ∧
     (initShard 10 3 2 (GetNumShards 10 3 2 - 1)).endv = 10 ∧
     Finset.sum (Finset.range (GetNumShards 10 3 2))
       (fun s => (initShard 10 3 2 s).endv - (initShard 10 3 2 s).s0) = 10) :=
  ⟨by decide, by decide, ClaimC3 10 3 2 (by decide) (by decide)⟩

/-- Witness for the amended C6 at the racing schedule of the
counterexample: 1 discarded iteration, within the bound
`B * (W * S) = 2`. -/
theorem ClaimC6_amended_witness :
    (1 ≤ 2) ∧ (1 ≤ 1) ∧
    (discardedTotal (finalState 1 2 1 2 [0, 1, 0, 1, 0]) (GetNumShards 1 2 1) ≤
      1 * (2 * GetNumShards 1 2 1) ∧
    (∀ s, s < GetNumShards 1 2 1 →
      ∀ f ∈ ((finalState 1 2 1 2 [0, 1, 0, 1, 0]).shards s).fails,
        ((finalState 1 2 1 2 [0, 1, 0, 1, 0]).shards s).endv ≤ f.1 ∧ f.2 = 1 ∧
        ∀ r ∈ ((finalState 1 2 1 2 [0, 1, 0, 1, 0]).shards s).ranges, r.2 ≤ f.1)) :=
  ⟨by decide, by decide, ClaimC6_amended 1 2 1 2 (by decide) (by decide) [0, 1, 0, 1, 0]⟩

/-- Rounded division `llroundl(a / r)` for integer `a` and positive
integer `r`: round half away from zero.  For the magnitudes reachable
here (`|a| < 2^63`, the x87 80-bit long double has a 64-bit significand)
the C++ expression computes exactly this. -/
def llroundDiv (a r : Int) : Int :=
  if 0 ≤ a then (2 * a + r).tdiv (2 * r) else -((2 * (-a) + r).tdiv (2 * r))

/-- Initial block size of the dynamic policy (threadpool.cc line 438):
`max(1LL, llroundl((long double)total / num_of_blocks))`. -/
def dynBaseBlockSize (total R : Nat) : Int :=
  max 1 (llroundDiv (total : Int) (R : Int))

/-- Number of work items dispatched by the dynamic policy (threadpool.cc
line 457): `min(NumThreads() + 1, num_of_blocks)`. -/
def dynNumWorkItems (numThreads R : Nat) : Nat := min (numThreads + 1) R

/-- Control point of a dynamic-policy work item.  Compared with the
static policy it has the extra atomic step `atSub w`: after executing a
range of width `w` the worker performs `left.fetch_sub(w)` and then
recomputes its local block size (threadpool.cc lines 449-452). -/
inductive DPhase where
  | atCheck
  | atAdd
  | atSub (w : Nat)
  | finished
deriving DecidableEq

/-- Dynamic-policy work item: like `Caller` plus the local block size `b`
(`std::ptrdiff_t b = base_block_size` in `run_work`; it is always at
least 1, so a natural number carries it faithfully). -/
structure DCaller where
  home : Nat
  shard : Nat
  phase : DPhase
  b : Nat

/-- Dynamic-policy loop state: the shards, the work items, and the shared
cache-line-aligned counter `left` (a signed `ptrdiff_t`). -/
structure DState where
  shards : Nat → LoopCounterShard
  callers : Nat → DCaller
  left : Int

/-- Cursor advance of the dynamic claim loop (same code path as the
static one). -/
def dstepAdvance (S : Nat) (st : DState) (c : Nat) (k : DCaller) : DState :=
  let ns := (k.shard + 1) % S
  let k' := { k with shard := ns,
                     phase := if ns = k.home then DPhase.finished else DPhase.atCheck }
  { st with callers := Function.update st.callers c k' }

/-- One atomic step of dynamic-policy caller `c` with target block count
`R = d_of_p * dynamic_block_base`.  The claim uses the caller's current
local block size `k.b`; after a successful claim of width `w`, the
`fetch_sub` returns the value of `left` BEFORE the decrement (`todo`),
and the new local block size is `max(1, llroundl(todo / R))`, recomputed
only while `b > 1` (threadpool.cc lines 449-452). -/
def dstep (R S : Nat) (st : DState) (c : Nat) : DState :=
  let k := st.callers c
  match k.phase with
  | DPhase.finished => st
  | DPhase.atCheck =>
    let sh := st.shards k.shard
    if sh.next < sh.endv then
      { st with callers := Function.update st.callers c ({ k with phase := DPhase.atAdd }) }
    else
      dstepAdvance S st c k
  | DPhase.atAdd =>
    let sh := st.shards k.shard
    if sh.next < sh.endv then
      let myEnd := min sh.endv (sh.next + k.b)
      let sh' := { sh with next := sh.next + k.b, ranges := sh.ranges ++ [(sh.next, myEnd)] }
      { st with shards := Function.update st.shards k.shard sh',
                callers := Function.update st.callers c
                  ({ k with phase := DPhase.atSub (myEnd - sh.next) }) }
    else
      let sh' := { sh with next := sh.next + k.b, fails := sh.fails ++ [(sh.next, k.b)] }
      dstepAdvance S ({ st with shards := Function.update st.shards k.shard sh' }) c k
  | DPhase.atSub w =>
    let todo := st.left
    let b' := if 1 < k.b then (max 1 (llroundDiv todo (R : Int))).toNat else k.b
    { st with left := st.left - (w : Int),
              callers := Function.update st.callers c
                ({ k with b := b', phase := DPhase.atCheck }) }

/-- Initial dynamic-policy state: fresh `LoopCounter(total, d_of_p,
base_block_size)`, `left = total`, and `min(NumThreads() + 1, R)` work
items each starting with `b = base_block_size`. -/
def dynInit (total dOfP dynBase numThreads : Nat) : DState :=
  let R := dOfP * dynBase
  let baseB := (dynBaseBlockSize total R).toNat
  let S := GetNumShards total dOfP baseB
  let W := dynNumWorkItems numThreads R
  { shards := initShard total dOfP baseB,
    callers := fun i =>
      if i < W then { home := i % S, shard := i % S, phase := DPhase.atCheck, b := baseB }
      else { home := 0, shard := 0, phase := DPhase.finished, b := baseB },
    left := (total : Int) }

/-- Run the dynamic loop under an arbitrary interleaving. -/
def dynRun (R S : Nat) (st : DState) (sched : List Nat) : DState :=
  sched.foldl (dstep R S) st

/-- Dynamic-policy state after schedule `sched`. -/
def dynFinalState (total dOfP dynBase numThreads : Nat) (sched : List Nat) : DState :=
  dynRun (dOfP * dynBase)
    (GetNumShards total dOfP (dynBaseBlockSize total (dOfP * dynBase)).toNat)
    (dynInit total dOfP dynBase numThreads) sched

theorem toNat_max_one (z : Int) : 1 ≤ (max 1 z).toNat := by
  have h1 : (1 : Int) ≤ max 1 z := le_max_left 1 z
  omega

theorem dyn_inv_step (R S : Nat) (st : DState) (c : Nat)
    (h1 : ∀ x, 1 ≤ (st.callers x).b)
    (h2 : ∀ s r, r ∈ (st.shards s).ranges → r.1 < r.2) :
    (∀ x, 1 ≤ ((dstep R S st c).callers x).b) ∧
    (∀ s r, r ∈ ((dstep R S st c).shards s).ranges → r.1 < r.2) := by
  cases hph : (st.callers c).phase <;> simp only [dstep, dstepAdvance, hph]
  · split
    · refine ⟨?_, h2⟩
      intro x
      dsimp only
      by_cases hx : x = c
      · rw [hx, Function.update_same]
        exact h1 c
      · rw [Function.update_noteq hx]
        exact h1 x
    · refine ⟨?_, h2⟩
      intro x
      dsimp only
      by_cases hx : x = c
      · rw [hx, Function.update_same]
        exact h1 c
      · rw [Function.update_noteq hx]
        exact h1 x
  · by_cases hlt : (st.shards (st.callers c).shard).next < (st.shards (st.callers c).shard).endv
    · rw [if_pos hlt]
      constructor
      · intro x
        dsimp only
        by_cases hx : x = c
        · rw [hx, Function.update_same]
          exact h1 c
        · rw [Function.update_noteq hx]
          exact h1 x
      · intro s r hr
        dsimp only at hr
        by_cases hs : s = (st.callers c).shard
        · rw [hs, Function.update_same] at hr
          dsimp only at hr
          rcases List.mem_append.mp hr with hr | hr
          · exact h2 _ r hr
          · rcases List.mem_singleton.mp hr with he
            rw [he]
            dsimp only
            have hb := h1 c
            exact lt_min hlt (by omega)
        · rw [Function.update_noteq hs] at hr
          exact h2 s r hr
    · rw [if_neg hlt]
      constructor
      · intro x
        dsimp only
        by_cases hx : x = c
        · rw [hx, Function.update_same]
          exact h1 c
        · rw [Function.update_noteq hx]
          exact h1 x
      · intro s r hr
        dsimp only at hr
        by_cases hs : s = (st.callers c).shard
        · rw [hs, Function.update_same] at hr
          exact h2 _ r hr
        · rw [Function.update_noteq hs] at hr
          exact h2 s r hr
  · refine ⟨?_, h2⟩
    intro x
    by_cases hx : x = c
    · rw [hx, Function.update_same]
      dsimp only
      split
      · exact toNat_max_one _
      · exact h1 c
    · rw [Function.update_noteq hx]
      exact h1 x
  · exact ⟨h1, h2⟩

theorem dyn_inv_run (R S : Nat) (sched : List Nat) (st : DState)
    (h1 : ∀ x, 1 ≤ (st.callers x).b)
    (h2 : ∀ s r, r ∈ (st.shards s).ranges → r.1 < r.2) :
    (∀ x, 1 ≤ ((dynRun R S st sched).callers x).b) ∧
    (∀ s r, r ∈ ((dynRun R S st sched).shards s).ranges → r.1 < r.2) := by
  induction sched generalizing st with
  | nil => exact ⟨h1, h2⟩
  | cons c cs ih =>
    have hstep := dyn_inv_step R S st c h1 h2
    exact ih (dstep R S st c) hstep.1 hstep.2

/-- C7 counterexample: dynamic policy with `total = 8`, `d_of_p = 1`,
`dynamic_block_base = 2` (target block count `R = 2`,
`base_block_size = 4`) and one worker.  After the worker executes the
range `[0, 4)` and performs its `fetch_sub`, the code recomputes the
local block size from the PRE-decrement value `todo = 8`, giving
`b = max(1, round(8 / 2)) = 4`, while the claim's formula applied to the
decremented counter `left = 4` gives `max(1, round(4 / 2)) = 2`. -/
theorem ClaimC7_counterexample :
    ((dynFinalState 8 1 2 0 [0, 0, 0]).callers 0).b = 4 ∧
    (dynFinalState 8 1 2 0 [0, 0, 0]).left = 4 ∧
    (max 1 (llroundDiv (dynFinalState 8 1 2 0 [0, 0, 0]).left 2)).toNat = 2 ∧
    (4 : Nat) ≠ 2 := by
  decide

/-- C7, amended: under the dynamic policy with target block count
`R = d_of_p * dynamic_block_base`, the scheduler dispatches
`min(workers + 1, R)` work items; each worker, after executing a range of
width `w`, decrements the shared counter `left` by `w` and, while its
current block size exceeds 1, recomputes its local block size as
`max(1, round(todo / R))` where `todo` is the value of `left` immediately
BEFORE the decrement (the `fetch_sub` return value) — not the decremented
value; consequently the local block size is always at least 1 and every
delivered range is non-empty, under every interleaving. -/
theorem ClaimC7_amended (total dOfP dynBase numThreads : Nat) (hd : 1 ≤ dOfP)
    (hdb : 1 ≤ dynBase) (sched : List Nat) :
    (∀ c, 1 ≤ ((dynFinalState total dOfP dynBase numThreads sched).callers c).b) ∧
    (∀ s r, r ∈ ((dynFinalState total dOfP dynBase numThreads sched).shards s).ranges →
      r.1 < r.2) ∧
    dynNumWorkItems numThreads (dOfP * dynBase) = min (numThreads + 1) (dOfP * dynBase) := by
  have hb0 : ∀ x, 1 ≤ ((dynInit total dOfP dynBase numThreads).callers x).b := by
    intro x
    unfold dynInit
    dsimp only
    split <;> exact toNat_max_one _
  have hr0 : ∀ s r, r ∈ ((dynInit total dOfP dynBase numThreads).shards s).ranges →
      r.1 < r.2 := by
    intro s r hr
    have he : ((dynInit total dOfP dynBase numThreads).shards s).ranges = [] :=
      (initShard_fields total dOfP (dynBaseBlockSize total (dOfP * dynBase)).toNat s).2.1
    rw [he] at hr
    cases hr
  have hruns := dyn_inv_run (dOfP * dynBase)
    (GetNumShards total dOfP (dynBaseBlockSize total (dOfP * dynBase)).toNat) sched
    (dynInit total dOfP dynBase numThreads) hb0 hr0
  exact ⟨hruns.1, hruns.2, rfl⟩

/-- Witness for the amended C7 at the counterexample's concrete run. -/
theorem ClaimC7_amended_witness :
    (1 ≤ 1) ∧ (1 ≤ 2) ∧
    ((∀ c, 1 ≤ ((dynFinalState 8 1 2 0 [0, 0, 0]).callers c).b) ∧
     (∀ s r, r ∈ ((dynFinalState 8 1 2 0 [0, 0, 0]).shards s).ranges → r.1 < r.2) ∧
     dynNumWorkItems 0 (1 * 2) = min (0 + 1) (1 * 2)) :=
  ⟨by decide, by decide, ClaimC7_amended 8 1 2 0 (by decide) (by decide) [0, 0, 0]⟩

/-- `ThreadPool::ShouldParallelizeLoop` (threadpool.cc lines 527-544):
false for a trivial loop (one block of work) and when no helper thread is
available from the caller's vantage point. -/
def ShouldParallelizeLoop (numIterations blockSize currentThreadId numThreads : Int) : Bool :=
  if blockSize ≤ 0 ∨ numIterations ≤ blockSize then false
  else if (currentThreadId = -1 ∧ numThreads = 0) ∨
      (currentThreadId ≠ -1 ∧ numThreads = 1) then false
  else true

/-- Observable outcome of a parallel-for entry point: either `fn` is
invoked inline with the listed `(first, last)` arguments on the caller
thread and no loop counter is created (`invoke`), or the call proceeds to
counter-based scheduling, dispatching the given number of work items with
the given block size (`scheduled`). -/
inductive LoopOutcome where
  | invoke (calls : List (Int × Int))
  | scheduled (numWorkItems : Int) (blockSize : Int)
deriving DecidableEq

/-- Entry behaviour of `ThreadPool::ParallelForFixedBlockSizeScheduling`
(threadpool.cc lines 402-459): `total <= 0` returns without calling `fn`;
`total <= block_size` calls `fn(0, total)` inline; otherwise a
`LoopCounter` is created and `min(NumThreads() + 1, num_blocks)` (static
policy) or `min(NumThreads() + 1, d_of_p * dynamic_block_base)` (dynamic
policy) work items are dispatched.  `Int.tdiv` is C++ signed division. -/
def ParallelForFixedBlockSizeScheduling
    (total blockSize numThreads dynamicBlockBase dOfP : Int) : LoopOutcome :=
  if total ≤ 0 then LoopOutcome.invoke []
  else if total ≤ blockSize then LoopOutcome.invoke [(0, total)]
  else if dynamicBlockBase ≤ 0 then
    LoopOutcome.scheduled (min (numThreads + 1) (total.tdiv blockSize)) blockSize
  else
    LoopOutcome.scheduled (min (numThreads + 1) (dOfP * dynamicBlockBase))
      (max 1 (llroundDiv total (dOfP * dynamicBlockBase)))

/-- Entry behaviour of the cost-model `ThreadPool::ParallelFor`
(threadpool.cc lines 607-621).  `ORT_ENFORCE(n >= 0)` is the error case.
The call `ShouldParallelizeLoop(n)` uses the block-size default from the
class declaration (not under `src/`); it is passed here as
`defaultBlockSize`, and for `n = 0` the result is false for EVERY
possible default.  `costModelSaysOneThread` abstracts the Eigen
floating-point test `CostModel::numThreads(...) == 1`, which is evaluated
only when `ShouldParallelizeLoop` returned true; `computedBlock`
abstracts `CalculateParallelForBlock`, which is reached only on the
scheduling path. -/
def ParallelFor (n defaultBlockSize : Int) (costModelSaysOneThread : Bool)
    (currentThreadId numThreads dynamicBlockBase dOfP computedBlock : Int) :
    Except String LoopOutcome :=
  if n < 0 then Except.error "n >= 0 enforced"
  else if (! ShouldParallelizeLoop n defaultBlockSize currentThreadId numThreads) ||
      costModelSaysOneThread then
    Except.ok (LoopOutcome.invoke [(0, n)])
  else
    Except.ok (ParallelForFixedBlockSizeScheduling n computedBlock numThreads
      dynamicBlockBase dOfP)

/-- C4 counterexample: `ParallelForFixedBlockSizeScheduling` with
`N = 0 ≤ B = 1` returns WITHOUT invoking `fn` (lines 405-406), so the
bypass does not invoke `fn` exactly once with `(0, N)` for every
`N ≥ 0`. -/
theorem ClaimC4_counterexample :
    ParallelForFixedBlockSizeScheduling 0 1 4 0 5 = LoopOutcome.invoke [] ∧
    LoopOutcome.invoke ([] : List (Int × Int)) ≠ LoopOutcome.invoke [(0, 0)] := by
  decide

/-- C4, amended: for `N ≥ 1`, if `N ≤ B` then
`ParallelForFixedBlockSizeScheduling` invokes `fn` exactly once with
`(0, N)` on the caller thread and creates no loop counter; for `N ≤ 0` it
returns without invoking `fn`; and whenever `ShouldParallelizeLoop`
returns false, `ParallelFor` (with `n ≥ 0`) invokes `fn` exactly once
with `(0, n)` inline, creating no loop counter. -/
theorem ClaimC4_amended :
    (∀ total blockSize numThreads dynamicBlockBase dOfP : Int,
      1 ≤ total → total ≤ blockSize →
      ParallelForFixedBlockSizeScheduling total blockSize numThreads dynamicBlockBase dOfP =
        LoopOutcome.invoke [(0, total)]) ∧
    (∀ total blockSize numThreads dynamicBlockBase dOfP : Int,
      total ≤ 0 →
      ParallelForFixedBlockSizeScheduling total blockSize numThreads dynamicBlockBase dOfP =
        LoopOutcome.invoke []) ∧
    (∀ n dbs ctid nth dbb dop blk : Int, ∀ cost : Bool,
      0 ≤ n →
      ShouldParallelizeLoop n dbs ctid nth = false →
      ParallelFor n dbs cost ctid nth dbb dop blk =
        Except.ok (LoopOutcome.invoke [(0, n)])) := by
  refine ⟨?_, ?_, ?_⟩
  · intro total blockSize numThreads dynamicBlockBase dOfP h1 h2
    unfold ParallelForFixedBlockSizeScheduling
    rw [if_neg (by omega), if_pos h2]
  · intro total blockSize numThreads dynamicBlockBase dOfP h1
    unfold ParallelForFixedBlockSizeScheduling
    rw [if_pos h1]
  · intro n dbs ctid nth dbb dop blk cost h0 hspl
    unfold ParallelFor
    rw [if_neg (by omega), hspl]
    simp

/-- Witness for the amended C4. -/
theorem ClaimC4_amended_witness :
    ParallelForFixedBlockSizeScheduling 3 5 4 0 5 = LoopOutcome.invoke [(0, 3)] ∧
    ParallelForFixedBlockSizeScheduling (-1) 5 4 0 5 = LoopOutcome.invoke [] ∧
    ParallelFor 7 1 false (-1) 0 0 1 2 = Except.ok (LoopOutcome.invoke [(0, 7)]) :=
  ⟨ClaimC4_amended.1 3 5 4 0 5 (by decide) (by decide),
   ClaimC4_amended.2.1 (-1) 5 4 0 5 (by decide),
   ClaimC4_amended.2.2 7 1 (-1) 0 0 1 2 false (by decide) (by decide)⟩

/-- C5 counterexample: `ParallelFor(0, cost, fn)` invokes `fn` once with
the empty range `(0, 0)`: `ShouldParallelizeLoop(0, default)` is false
for every default block size, so line 615 executes `f(0, n)` with
`n = 0` — `fn` IS invoked, contradicting the claim that it never is. -/
theorem ClaimC5_counterexample :
    ParallelFor 0 1 false (-1) 4 0 5 3 = Except.ok (LoopOutcome.invoke [(0, 0)]) ∧
    LoopOutcome.invoke ([(0, 0)] : List (Int × Int)) ≠ LoopOutcome.invoke [] := by
  exact ⟨rfl, by decide⟩

/-- C5, amended: `ParallelFor(0, cost, fn)` on any pool invokes `fn`
exactly once with the empty range `(0, 0)` on the caller thread and
returns; no iteration is executed and no loop counter is created.  This
holds for every default block size, cost-model outcome, caller thread id
and pool configuration. -/
theorem ClaimC5_amended (dbs ctid nth dbb dop blk : Int) (cost : Bool) :
    ParallelFor 0 dbs cost ctid nth dbb dop blk =
      Except.ok (LoopOutcome.invoke [(0, 0)]) := by
  unfold ParallelFor
  rw [if_neg (by omega)]
  have hspl : ShouldParallelizeLoop 0 dbs ctid nth = false := by
    unfold ShouldParallelizeLoop
    by_cases h : dbs ≤ 0
    · rw [if_pos (Or.inl h)]
    · rw [if_pos (Or.inr (by omega))]
  rw [hspl]
  simp

/-- Result of running the `ParallelSection` constructor: `fatal` when an
`ORT_ENFORCE` fires (never caught by the core), otherwise the new value
of the thread-local `current_parallel_section` marker and whether a
section state `ps_` was allocated. -/
inductive SecResult where
  | fatal (msg : String)
  | ok (marker : Bool) (allocatedPs : Bool)
deriving DecidableEq

/-- `ThreadPool::ParallelSection::ParallelSection(tp)` (threadpool.cc
lines 493-502).  `marker` is the current value of the thread-local
`current_parallel_section` on the constructing thread; `tpIsNull` is
`tp == nullptr`; `hasUnderlying` is `tp->underlying_threadpool_ !=
nullptr`.  The first `ORT_ENFORCE` rejects construction exactly when the
marker is set; the section state is allocated and the marker set only
when `tp && tp->underlying_threadpool_`. -/
def ParallelSectionConstruct (marker tpIsNull hasUnderlying : Bool) : SecResult :=
  if marker then SecResult.fatal "Nested parallelism not supported"
  else if (!tpIsNull) && hasUnderlying then SecResult.ok true true
  else SecResult.ok false false

/-- `ThreadPool::ParallelSection::~ParallelSection` (threadpool.cc lines
504-510): tears the section down (EndParallelSection, `ps_.reset()`,
clearing the marker) exactly when the thread-local marker is set.
Returns `(new marker, tore down)`. -/
def ParallelSectionDestruct (marker : Bool) : Bool × Bool :=
  if marker then (false, true) else (marker, false)

/-- `ThreadPool::ThreadPool` (threadpool.cc lines 367-395): the
underlying threadpool (and its worker threads) is created only when
`degree_of_parallelism >= 2`. -/
def hasUnderlyingThreadpool (degreeOfParallelism : Nat) : Bool :=
  decide (2 ≤ degreeOfParallelism)

/-- C8 counterexample: a `ParallelSection` constructed over a null pool
is alive but never set the thread-local marker, so constructing a second
section on the same thread succeeds (returns `ok`, which is a different
constructor from every `fatal` rejection) instead of being rejected. -/
theorem ClaimC8_counterexample :
    ParallelSectionConstruct false true false = SecResult.ok false false ∧
    ParallelSectionConstruct false false true = SecResult.ok true true ∧
    (∀ m a : Bool, SecResult.ok m a ≠ SecResult.fatal "Nested parallelism not supported") := by
  decide

/-- C8, amended: constructing a second `ParallelSection` on a thread is
rejected as a contract violation (fatal `ORT_ENFORCE`, never caught by
the core) exactly when the thread-local `current_parallel_section`
marker is set — i.e. exactly when an alive section on that thread was
constructed over a non-null pool with an underlying threadpool; a
construction with the marker clear always succeeds and sets the marker
iff the pool is non-null with worker threads. -/
theorem ClaimC8_amended :
    (∀ tpIsNull hasUnderlying : Bool,
      ParallelSectionConstruct true tpIsNull hasUnderlying =
        SecResult.fatal "Nested parallelism not supported") ∧
    (∀ tpIsNull hasUnderlying : Bool,
      ParallelSectionConstruct false tpIsNull hasUnderlying =
        SecResult.ok ((!tpIsNull) && hasUnderlying) ((!tpIsNull) && hasUnderlying)) := by
  decide

/-- C10: constructing a `ParallelSection` over a null `ThreadPool`
pointer, or over a pool that created no worker threads
(`degree_of_parallelism == 1`, hence no underlying threadpool), allocates
no section state and leaves the thread-local marker unset; the destructor
of such a section performs no teardown; and constructing a second
`ParallelSection` on the same thread in that situation is not rejected
(it never returns the fatal rejection). -/
theorem ClaimC10 :
    (∀ hasUnderlying : Bool,
      ParallelSectionConstruct false true hasUnderlying = SecResult.ok false false) ∧
    hasUnderlyingThreadpool 1 = false ∧
    ParallelSectionConstruct false false (hasUnderlyingThreadpool 1) =
      SecResult.ok false false ∧
    ParallelSectionDestruct false = (false, false) ∧
    (∀ tpIsNull hasUnderlying : Bool,
      ParallelSectionConstruct false tpIsNull hasUnderlying ≠
        SecResult.fatal "Nested parallelism not supported") := by
  decide

/-- Events tracked by the threadpool profiler (threadpool.h enumeration,
used at threadpool.cc lines 181-196). -/
inductive ThreadPoolEvent where
  | DISTRIBUTION
  | DISTRIBUTION_ENQUEUE
  | RUN
  | WAIT
  | WAIT_REVOKE
deriving DecidableEq

/-- Observable state of a `ThreadPoolProfiler`: the `enabled_` flag, the
main-thread statistics (timestamp stack `points_`, most recent timestamp
first; accumulated event durations `events_`; logged block sizes
`blocks_`; last CPU identity `core_`) and the per-worker statistics
(`num_run_`, `core_`, `last_logged_point_`). -/
structure ThreadPoolProfilerState where
  enabled : Bool
  points : List Nat
  events : ThreadPoolEvent → Nat
  blocks : List Int
  core : Int
  childNumRun : Nat → Nat
  childCore : Nat → Int
  childLastLogged : Nat → Nat

/-- Profiler state at construction. -/
def initialProfiler : ThreadPoolProfilerState :=
  { enabled := false, points := [], events := fun _ => 0, blocks := [], core := -1,
    childNumRun := fun _ => 0, childCore := fun _ => -1, childLastLogged := fun _ => 0 }

namespace ThreadPoolProfiler

/-- `ThreadPoolProfiler::Start` (threadpool.cc lines 65-67): sets the
`enabled_` flag. -/
def Start (st : ThreadPoolProfilerState) : ThreadPoolProfilerState :=
  { st with enabled := true }

/-- `ThreadPoolProfiler::Stop` (threadpool.cc lines 77-88): enforces that
the profiler was started, serialises the statistics and resets the
main-thread stat (`MainThreadStat::Reset`, lines 163-179, which enforces
an empty timestamp stack and clears `blocks_` and `events_`).  The
`enabled_` flag is NOT cleared — only the destructor clears it. -/
def Stop (st : ThreadPoolProfilerState) : Except String ThreadPoolProfilerState :=
  if st.enabled = false then Except.error "Profiler not started yet"
  else if st.points ≠ [] then Except.error "LogStart must pair with LogEnd"
  else Except.ok { st with blocks := [], events := fun _ => 0 }

/-- `ThreadPoolProfiler::LogStart` (threadpool.cc lines 107-111): pushes
a timestamp, short-circuiting when disabled. -/
def LogStart (now : Nat) (st : ThreadPoolProfilerState) : ThreadPoolProfilerState :=
  if st.enabled then { st with points := now :: st.points } else st

/-- `ThreadPoolProfiler::LogEnd` (lines 113-117 and 151-155): pops the
last timestamp and accumulates the elapsed time into the event's bucket;
enforces a matching `LogStart`; short-circuits when disabled. -/
def LogEnd (evt : ThreadPoolEvent) (now : Nat) (st : ThreadPoolProfilerState) :
    Except String ThreadPoolProfilerState :=
  if st.enabled then
    match st.points with
    | [] => Except.error "LogStart must pair with LogEnd"
    | p :: rest =>
      Except.ok { st with
        points := rest,
        events := fun e => if e = evt then st.events e + (now - p) else st.events e }
  else Except.ok st

/-- `ThreadPoolProfiler::LogEndAndStart` (lines 119-123 and 157-161):
like `LogEnd` but replaces the popped timestamp with the current time. -/
def LogEndAndStart (evt : ThreadPoolEvent) (now : Nat) (st : ThreadPoolProfilerState) :
    Except String ThreadPoolProfilerState :=
  if st.enabled then
    match st.points with
    | [] => Except.error "LogStart must pair with LogEnd"
    | p :: rest =>
      Except.ok { st with
        points := now :: rest,
        events := fun e => if e = evt then st.events e + (now - p) else st.events e }
  else Except.ok st

/-- `ThreadPoolProfiler::LogStartAndCoreAndBlock` (lines 90-97): records
the CPU identity and the block size, then pushes a timestamp; all
guarded by the flag. -/
def LogStartAndCoreAndBlock (blockSize coreId : Int) (now : Nat)
    (st : ThreadPoolProfilerState) : ThreadPoolProfilerState :=
  if st.enabled then
    { st with core := coreId, blocks := st.blocks ++ [blockSize], points := now :: st.points }
  else st

/-- `ThreadPoolProfiler::LogCoreAndBlock` (lines 99-105). -/
def LogCoreAndBlock (blockSize coreId : Int) (st : ThreadPoolProfilerState) :
    ThreadPoolProfilerState :=
  if st.enabled then { st with core := coreId, blocks := st.blocks ++ [blockSize] } else st

/-- `ThreadPoolProfiler::LogRun` (lines 202-226): when enabled,
increments the worker's run count and samples its CPU identity at most
every 10 ms (10000 microseconds). -/
def LogRun (idx : Nat) (now : Nat) (coreId : Int) (st : ThreadPoolProfilerState) :
    ThreadPoolProfilerState :=
  if st.enabled then
    let st1 := { st with
      childNumRun := Function.update st.childNumRun idx (st.childNumRun idx + 1) }
    if st.childCore idx < 0 ∨ 10000 < now - st.childLastLogged idx then
      { st1 with childCore := Function.update st.childCore idx coreId,
                 childLastLogged := Function.update st.childLastLogged idx now }
    else st1
  else st

end ThreadPoolProfiler

/-- C9 counterexample: after `Start` then `Stop`, the `enabled_` flag is
STILL set (`Stop` returns the report without clearing the flag, lines
77-88), so a subsequent `LogStart` does not short-circuit: it records a
timestamp.  The claim that `StopProfiling` clears the flag is false. -/
theorem ClaimC9_counterexample :
    (ThreadPoolProfiler.Stop (ThreadPoolProfiler.Start initialProfiler)).toOption.map
      (fun s => s.enabled) = some true ∧
    (ThreadPoolProfiler.Stop (ThreadPoolProfiler.Start initialProfiler)).toOption.map
      (fun s => (ThreadPoolProfiler.LogStart 7 s).points) = some [7] ∧
    some true ≠ some false := by
  refine ⟨rfl, rfl, by decide⟩

/-- C9, amended: `StartProfiling` sets the single `enabled_` flag;
`StopProfiling` requires it to be set and emits and resets the
statistics WITHOUT clearing the flag (only the profiler's destructor
clears it); and every profiler log call (`LogStart`, `LogEnd`,
`LogEndAndStart`, `LogStartAndCoreAndBlock`, `LogCoreAndBlock`,
`LogRun`) short-circuits, performing no state change, whenever the flag
is disabled. -/
theorem ClaimC9_amended (st stDis : ThreadPoolProfilerState) (evt : ThreadPoolEvent)
    (t : Nat) (b cid : Int) (i : Nat)
    (hEn : st.enabled = true) (hPts : st.points = [])
    (hDis : stDis.enabled = false) :
    (ThreadPoolProfiler.Start st).enabled = true ∧
    ThreadPoolProfiler.Stop st = Except.ok { st with blocks := [], events := fun _ => 0 } ∧
    (ThreadPoolProfiler.Stop st).toOption.map (fun s => s.enabled) = some true ∧
    ThreadPoolProfiler.LogStart t stDis = stDis ∧
    ThreadPoolProfiler.LogEnd evt t stDis = Except.ok stDis ∧
    ThreadPoolProfiler.LogEndAndStart evt t stDis = Except.ok stDis ∧
    ThreadPoolProfiler.LogStartAndCoreAndBlock b cid t stDis = stDis ∧
    ThreadPoolProfiler.LogCoreAndBlock b cid stDis = stDis ∧
    ThreadPoolProfiler.LogRun i t cid stDis = stDis := by
  have h1 : ¬ (st.enabled = false) := by
    rw [hEn]
    simp
  have h2 : ¬ (st.points ≠ []) := by
    rw [hPts]
    simp
  have hstop : ThreadPoolProfiler.Stop st =
      Except.ok { st with blocks := [], events := fun _ => 0 } := by
    unfold ThreadPoolProfiler.Stop
    rw [if_neg h1, if_neg h2]
  refine ⟨rfl, hstop, ?_, ?_, ?_, ?_, ?_, ?_, ?_⟩
  · rw [hstop]
    simp [Except.toOption, hEn]
  · unfold ThreadPoolProfiler.LogStart
    rw [hDis]
    simp
  · unfold ThreadPoolProfiler.LogEnd
    rw [hDis]
    simp
  · unfold ThreadPoolProfiler.LogEndAndStart
    rw [hDis]
    simp
  · unfold ThreadPoolProfiler.LogStartAndCoreAndBlock
    rw [hDis]
    simp
  · unfold ThreadPoolProfiler.LogCoreAndBlock
    rw [hDis]
    simp
  · unfold ThreadPoolProfiler.LogRun
    rw [hDis]
    simp

/-- Witness for the amended C9 at a concrete started profiler and a
concrete disabled profiler. -/
theorem ClaimC9_amended_witness :
    (ThreadPoolProfiler.Start initialProfiler).enabled = true ∧
    (ThreadPoolProfiler.Start initialProfiler).points = [] ∧
    initialProfiler.enabled = false ∧
    ((ThreadPoolProfiler.Start (ThreadPoolProfiler.Start initialProfiler)).enabled = true ∧
     ThreadPoolProfiler.Stop (ThreadPoolProfiler.Start initialProfiler) =
       Except.ok { ThreadPoolProfiler.Start initialProfiler with
                    blocks := [], events := fun _ => 0 } ∧
     (ThreadPoolProfiler.Stop (ThreadPoolProfiler.Start initialProfiler)).toOption.map
       (fun s => s.enabled) = some true ∧
     ThreadPoolProfiler.LogStart 5 initialProfiler = initialProfiler ∧
     ThreadPoolProfiler.LogEnd ThreadPoolEvent.RUN 5 initialProfiler =
       Except.ok initialProfiler ∧
     ThreadPoolProfiler.LogEndAndStart ThreadPoolEvent.RUN 5 initialProfiler =
       Except.ok initialProfiler ∧
     ThreadPoolProfiler.LogStartAndCoreAndBlock 3 2 5 initialProfiler = initialProfiler ∧
     ThreadPoolProfiler.LogCoreAndBlock 3 2 initialProfiler = initialProfiler ∧
     ThreadPoolProfiler.LogRun 0 5 2 initialProfiler = initialProfiler) :=
  ⟨rfl, rfl, rfl,
   ClaimC9_amended (ThreadPoolProfiler.Start initialProfiler) initialProfiler
     ThreadPoolEvent.RUN 5 3 2 0 rfl rfl rfl⟩

end Threadpool
